import Mathlib

/-!
Verification development for the factorio-cost-calculator valuation core
(the api/ variant, which the specification designates as canonical).

The Python source is shallowly embedded as follows:
 - Python str is modelled as List Char (abbreviated Str).
 - Python dicts keyed by Item (or by str) are modelled as insertion-ordered
   association lists; assignment d[k] = v is upsertG (replace in place,
   else append), matching dict semantics including iteration order.
 - Python floats appearing in recipe/machine data and per-second rates are
   modelled as exact rationals; the cost map, where +inf and NaN can arise,
   is modelled by the type F of extended rationals with NaN, whose
   arithmetic mirrors IEEE-754 special-value rules (inf - inf = nan,
   inf * 0 = nan, any comparison with nan is false, and so on).
   Rounding of finite values is not modelled; no claim depends on it.
 - Python division raises ZeroDivisionError for a zero divisor; fallible
   steps of the engine therefore return Option, with none modelling the
   raised exception.
-/

namespace FC

abbrev Str := List Char

/-- Items: name, quality tier, fluid flag; model.py's Item (pydantic, frozen,
structural equality). Python's int is modelled by Int; the constructor
enforces no range on quality, exactly like the source. -/
structure Item where
  name : Str
  quality : Int
  is_fluid : Bool
deriving DecidableEq

def MIN_QUALITY : Int := 1
def MAX_QUALITY : Int := 5

/-- model.py Fluid(name): a fluid item at quality 1. -/
def Fluid (name : Str) : Item := ⟨name, 1, true⟩

/-- model.py MakeItem(name, quality, is_fluid). -/
def MakeItem (name : Str) (quality : Int) (is_fluid : Bool) : Item :=
  if is_fluid then Fluid name else ⟨name, quality, false⟩

/-- model.py BASE_RESOURCE = Item(name="resource"). -/
def BASE_RESOURCE : Item := ⟨"resource".data, 1, false⟩

/-! ### Association lists modelling Python dicts -/

/-- Dict assignment d[k] = v: replace in place if present, else append. -/
def upsertG {κ β : Type} [DecidableEq κ] : List (κ × β) → κ → β → List (κ × β)
  | [], k, v => [(k, v)]
  | p :: rest, k, v => if p.1 = k then (k, v) :: rest else p :: upsertG rest k v

/-- Dict lookup d[k] (first occurrence, hence the unique one under the
upsert discipline). -/
def getG? {κ β : Type} [DecidableEq κ] : List (κ × β) → κ → Option β
  | [], _ => none
  | p :: rest, k => if p.1 = k then some p.2 else getG? rest k

/-- Dict lookup with default, d.get(k, d0). -/
def getDG {κ β : Type} [DecidableEq κ] (m : List (κ × β)) (k : κ) (d0 : β) : β :=
  (getG? m k).getD d0

/-- Dict key-membership test, k in d. -/
def containsG {κ β : Type} [DecidableEq κ] (m : List (κ × β)) (k : κ) : Bool :=
  (getG? m k).isSome

/-- Dict deletion, del d[k]. -/
def eraseG {κ β : Type} [DecidableEq κ] : List (κ × β) → κ → List (κ × β)
  | [], _ => []
  | p :: rest, k => if p.1 = k then rest else p :: eraseG rest k

/-- Dict keys in iteration order. -/
def keysG {κ β : Type} (m : List (κ × β)) : List κ := m.map Prod.fst

/-- defaultdict(float) increment d[k] += v (missing key counts as 0). -/
def addToG {κ : Type} [DecidableEq κ] (m : List (κ × ℚ)) (k : κ) (v : ℚ) : List (κ × ℚ) :=
  upsertG m k (getDG m k 0 + v)

abbrev QList := List (Item × ℚ)

/-! ### Bonus algebra and machine data (model.py) -/

/-- model.py Bonus: additive three-vector with a cosmetic label. -/
structure Bonus where
  bname : Str
  speed : ℚ
  productivity : ℚ
  quality : ℚ
deriving DecidableEq

/-- Bonus.__add__ (the label becomes the empty string, as in the source). -/
def Bonus.add (a b : Bonus) : Bonus :=
  ⟨[], a.speed + b.speed, a.productivity + b.productivity, a.quality + b.quality⟩

/-- Bonus.__mul__ / __rmul__ by a scalar (the label is kept). -/
def Bonus.smul (a : Bonus) (scale : ℚ) : Bonus :=
  ⟨a.bname, a.speed * scale, a.productivity * scale, a.quality * scale⟩

def ZERO_BONUS : Bonus := ⟨"zero".data, 0, 0, 0⟩

structure Beacon where
  bname : Str
  transmission : ℚ
  effect : Bonus
deriving DecidableEq

structure Machine where
  mname : Str
  speed : ℚ
  module_slots : Nat
  base_effect : Bonus
deriving DecidableEq

structure MachineSettings where
  sname : Str
  module : Bonus
  num_beacons : Nat
  beacon : Option Beacon
deriving DecidableEq

/-- Models num_beacons ** 0.5. Exact on perfect squares; every concrete
beacon count used below is a perfect square, and no theorem depends on its
value elsewhere (the effect vector is universally quantified throughout). -/
def sqrtQ (n : Nat) : ℚ := (Nat.sqrt n : ℚ)

/-- MachineSettings.effect_total from model.py: base effect, plus the module
effect scaled by slots, plus the beacon effect scaled by transmission times
the square root of the beacon count (only when a beacon is set and
num_beacons is truthy, i.e. nonzero). -/
def MachineSettings.effect_total (s : MachineSettings) (m : Machine) : Bonus :=
  let effect := m.base_effect.add (s.module.smul (m.module_slots : ℚ))
  match s.beacon with
  | some b =>
      if s.num_beacons ≠ 0 then
        effect.add (b.effect.smul (b.transmission * sqrtQ s.num_beacons))
      else effect
  | none => effect

/-- model.py Recipe. ItemCounts dicts are insertion-ordered lists. -/
structure Recipe where
  rname : Str
  category : Str
  time : ℚ
  inputs : QList
  outputs : QList
  outputs_no_productivity : QList
  quality : Int
  allow_productivity : Bool
  allow_quality : Bool
  max_productivity : ℚ
  is_mining : Bool
deriving DecidableEq

/-- model.py Configuration (the read-only aggregate the engine consumes). -/
structure Configuration where
  cname : Str
  enable_quality : Bool
  enable_recycling : Bool
  machine_time_cost : ℚ
  resource_base_cost : ℚ
  machines : List (Str × Machine)
  machine_settings_available : List MachineSettings
  mining_productivity : Bonus
  recipe_bonuses : List (Str × Bonus)
  recipes : List Recipe
deriving DecidableEq

/-- controller.py _Clamp with finite bounds. All call sites have
min ≤ max, so the ValueError branch for min > max is never taken and is not
modelled. -/
def Clamp (val lo hi : ℚ) : ℚ :=
  if val < lo then lo else if hi < val then hi else val

/-- controller.py _Clamp with max = math.inf: only the lower bound acts. -/
def ClampLo (val lo : ℚ) : ℚ :=
  if val < lo then lo else val

/-! ### Extended rationals with NaN, mirroring Python float specials -/

/-- The value domain of the cost map: finite rationals, the two infinities
and NaN, with arithmetic following IEEE-754 special-value rules as Python
floats implement them. -/
inductive F where
  | nan : F
  | inf : F
  | ninf : F
  | fin : ℚ → F
deriving DecidableEq

def F.neg : F → F
  | nan => nan
  | inf => ninf
  | ninf => inf
  | fin q => fin (-q)

def F.add : F → F → F
  | nan, _ => nan
  | _, nan => nan
  | inf, ninf => nan
  | ninf, inf => nan
  | inf, _ => inf
  | _, inf => inf
  | ninf, _ => ninf
  | _, ninf => ninf
  | fin a, fin b => fin (a + b)

def F.sub (a b : F) : F := a.add b.neg

/-- Multiplication by a finite float (inf * 0 = nan, as in Python). -/
def F.mulQ : F → ℚ → F
  | nan, _ => nan
  | inf, c => if c = 0 then nan else if 0 < c then inf else ninf
  | ninf, c => if c = 0 then nan else if 0 < c then ninf else inf
  | fin a, c => fin (a * c)

def F.mul : F → F → F
  | nan, _ => nan
  | _, nan => nan
  | inf, inf => inf
  | inf, ninf => ninf
  | ninf, inf => ninf
  | ninf, ninf => inf
  | inf, fin c => if c = 0 then nan else if 0 < c then inf else ninf
  | fin c, inf => if c = 0 then nan else if 0 < c then inf else ninf
  | ninf, fin c => if c = 0 then nan else if 0 < c then ninf else inf
  | fin c, ninf => if c = 0 then nan else if 0 < c then ninf else inf
  | fin a, fin b => fin (a * b)

/-- Float / float division. A denominator of exactly fin 0 would raise
ZeroDivisionError in Python; the engine's only use of this operation is
guarded by the truthiness test on the denominator, so that case is
unreachable there (mapped to nan here). -/
def F.div : F → F → F
  | nan, _ => nan
  | _, nan => nan
  | inf, inf => nan
  | inf, ninf => nan
  | ninf, inf => nan
  | ninf, ninf => nan
  | fin _, inf => fin 0
  | fin _, ninf => fin 0
  | inf, fin c => if c = 0 then nan else if 0 < c then inf else ninf
  | ninf, fin c => if c = 0 then nan else if 0 < c then ninf else inf
  | fin a, fin b => if b = 0 then nan else fin (a / b)

/-- Division by a plain (finite) float divisor; none models the
ZeroDivisionError Python raises on a zero divisor. -/
def F.divQ (v : F) (c : ℚ) : Option F :=
  if c = 0 then none
  else
    match v with
    | nan => some nan
    | inf => some (if 0 < c then inf else ninf)
    | ninf => some (if 0 < c then ninf else inf)
    | fin a => some (fin (a / c))

/-- Python < on floats: false whenever either side is NaN. -/
def F.flt : F → F → Bool
  | nan, _ => false
  | _, nan => false
  | inf, _ => false
  | _, inf => true
  | ninf, ninf => false
  | ninf, _ => true
  | _, ninf => false
  | fin a, fin b => a < b

/-- Python <= on floats: false whenever either side is NaN. -/
def F.fle : F → F → Bool
  | nan, _ => false
  | _, nan => false
  | _, inf => true
  | inf, _ => false
  | ninf, _ => true
  | _, ninf => false
  | fin a, fin b => a ≤ b

/-- Python truthiness of a float: everything but 0.0 (NaN included) is
truthy. -/
def F.truthy : F → Bool
  | fin q => q ≠ 0
  | _ => true

/-- The cost invariant of the spec: a finite non-negative value or +inf;
in particular never NaN and never negative. -/
def F.good : F → Prop
  | inf => True
  | fin q => 0 ≤ q
  | _ => False

instance : DecidablePred F.good := by
  intro v
  cases v <;> simp only [F.good] <;> infer_instance

/-! ### Item serialization (model.py serialize / deserialize) -/

/-- Python str.startswith. -/
def startsWithS : Str → Str → Bool
  | [], _ => true
  | _ :: _, [] => false
  | a :: as_, b :: bs => a = b && startsWithS as_ bs

/-- Python substring containment, needle in hay. -/
def containsSub (needle : Str) : Str → Bool
  | [] => startsWithS needle []
  | c :: rest => startsWithS needle (c :: rest) || containsSub needle rest

/-- A match of the hyphen-q-digit pattern at the head position. -/
def headQMatch (c : Char) (rest : Str) : Option (Str × Str) :=
  match rest with
  | 'q' :: d :: tl => if c = '-' ∧ d.isDigit then some ([], d :: tl) else none
  | _ => none

/-- The value of re.match(r"(.*)-q(\d+)", s) in model.py deserialize: the
greedy leading group selects the longest prefix followed by a hyphen, the
letter q and at least one digit, i.e. the rightmost such occurrence; the
returned pair is that prefix and the remainder starting at the first digit.
Digits are modelled as ASCII digits. -/
def lastQSplit : Str → Option (Str × Str)
  | [] => none
  | c :: rest =>
    match lastQSplit rest with
    | some (p, tail) => some (c :: p, tail)
    | none => headQMatch c rest

/-- int(...) on a digit string. -/
def digitsVal (l : Str) : Int :=
  l.foldl (fun a c => a * 10 + ((c.toNat : Int) - ('0'.toNat : Int))) 0

/-- Item.serialize from model.py. -/
def Item.serialize (it : Item) : Str :=
  if it.is_fluid then "fluid-".data ++ it.name
  else if it.quality = 1 then it.name
  else it.name ++ "-q".data ++ (toString it.quality).data

/-- Item.deserialize from model.py (the branch for non-string input is the
identity and is not modelled; this is the string branch). -/
def Item.deserialize (l : Str) : Item :=
  if startsWithS "fluid-".data l then ⟨l.drop 6, 1, true⟩
  else
    match lastQSplit l with
    | some (p, tail) => ⟨p, digitsVal (tail.takeWhile Char.isDigit), false⟩
    | none => ⟨l, 1, false⟩

/-! ### Transformation builder (controller.py Transformation.__init__) -/

structure Transformation where
  tname : Str
  recipe : Recipe
  machine : Machine
  machine_settings : MachineSettings
  inputs_per_sec : QList
  outputs_per_sec : QList
deriving DecidableEq

/-- The total effect vector of Transformation.__init__: settings effect on
the machine, plus the per-recipe bonus (defaulting to ZERO_BONUS), plus the
mining bonus iff the recipe mines. -/
def extraEffects (r : Recipe) (recipe_bonuses : List (Str × Bonus))
    (machine : Machine) (s : MachineSettings) (mining_bonus : Bonus) : Bonus :=
  let e := (s.effect_total machine).add (getDG recipe_bonuses r.rname ZERO_BONUS)
  if r.is_mining then e.add mining_bonus else e

/-- Crafts per second: machine speed times the clamped speed multiplier over
the recipe time. -/
def rateOf (r : Recipe) (machine : Machine) (e : Bonus) : ℚ :=
  machine.speed * ClampLo (1 + e.speed) (1/5) / r.time

/-- inputs_per_sec before catalyst netting. -/
def inputRates (r : Recipe) (rate : ℚ) : QList :=
  r.inputs.foldl (fun m p => upsertG m p.1 (p.2 * rate)) []

/-- zero_quality_output_rate: productive outputs scaled by rate and the
clamped productivity multiplier, plus the no-productivity outputs scaled by
rate alone (added with defaultdict semantics). -/
def zeroQualityRates (r : Recipe) (rate prodMul : ℚ) : QList :=
  let m := r.outputs.foldl (fun m p => upsertG m p.1 (p.2 * rate * prodMul)) []
  r.outputs_no_productivity.foldl (fun m p => addToG m p.1 (p.2 * rate)) m

/-- One catalyst netting step: with iv the input rate and zv the
zero-quality output rate at the catalyst key, keep the signed remainder on
the larger side and drop both entries on a tie. Both lookups are at keys
present by construction, so the 0 defaults are never taken. -/
def netStep (st : QList × QList) (c : Item) : QList × QList :=
  if getDG st.2 c 0 < getDG st.1 c 0 then
    (upsertG st.1 c (getDG st.1 c 0 - getDG st.2 c 0), eraseG st.2 c)
  else if getDG st.1 c 0 < getDG st.2 c 0 then
    (eraseG st.1 c, upsertG st.2 c (getDG st.2 c 0 - getDG st.1 c 0))
  else (eraseG st.1 c, eraseG st.2 c)

/-- Catalyst netting over the items appearing both as inputs and as keys of
recipe.outputs. The source iterates a Python set; the steps touch disjoint
keys, so any order gives the same maps, and input order is used here. -/
def netCatalysts (r : Recipe) (ins zq : QList) : QList × QList :=
  ((keysG ins).filter (fun i => containsG r.outputs i)).foldl netStep (ins, zq)

/-- The netted zero-quality output rates of a transformation (the rates the
quality redistribution starts from). -/
def zqOf (r : Recipe) (rb : List (Str × Bonus)) (machine : Machine)
    (s : MachineSettings) (mb : Bonus) : QList :=
  let e := extraEffects r rb machine s mb
  let rate := rateOf r machine e
  let prodMul := Clamp (1 + e.productivity) 0 (1 + r.max_productivity)
  (netCatalysts r (inputRates r rate) (zeroQualityRates r rate prodMul)).2

/-- The netted inputs_per_sec of a transformation. -/
def insOf (r : Recipe) (rb : List (Str × Bonus)) (machine : Machine)
    (s : MachineSettings) (mb : Bonus) : QList :=
  let e := extraEffects r rb machine s mb
  let rate := rateOf r machine e
  let prodMul := Clamp (1 + e.productivity) 0 (1 + r.max_productivity)
  (netCatalysts r (inputRates r rate) (zeroQualityRates r rate prodMul)).1

/-- The clamped quality effect of a transformation. -/
def qEffOf (r : Recipe) (rb : List (Str × Bonus)) (machine : Machine)
    (s : MachineSettings) (mb : Bonus) : ℚ :=
  ClampLo (extraEffects r rb machine s mb).quality 0

/-- The base-quality output map: non-fluid rates re-keyed at the recipe
quality and scaled by (1 - quality); fluid rates re-keyed as quality-1
fluids, unscaled (two dict comprehensions joined by update). -/
def baseOutputs (rq : Int) (q : ℚ) (zq : QList) : QList :=
  let m := zq.foldl
    (fun m p => if p.1.is_fluid then m else upsertG m (⟨p.1.name, rq, false⟩ : Item) (p.2 * (1 - q))) []
  zq.foldl (fun m p => if p.1.is_fluid then upsertG m (Fluid p.1.name) p.2 else m) m

/-- One tier of the quality redistribution while-loop body: update every
non-fluid output at quality tier t with multiplier cm. -/
def tierFold (zq : QList) (t : Int) (cm : ℚ) (m : QList) : QList :=
  zq.foldl
    (fun m p => if p.1.is_fluid then m else upsertG m (⟨p.1.name, t, false⟩ : Item) (p.2 * cm)) m

/-- The quality redistribution while-loop. The fuel argument counts the
remaining iterations exactly: the source loop runs while t ≤ MAX_QUALITY,
and the caller passes fuel = max (5 - recipe.quality) 0 together with
t = recipe.quality + 1, so the t ≤ 5 test mirrors the loop condition. At
the terminal tier 5 the remaining mass left_over replaces the geometric
multiplier. -/
def tierLoop (zq : QList) : Nat → ℚ → ℚ → Int → QList → QList
  | 0, _, _, _, m => m
  | fuel + 1, left_over, cm0, t, m =>
    if t ≤ MAX_QUALITY then
      let cm := if t = MAX_QUALITY then left_over else cm0
      tierLoop zq fuel (left_over - cm) (cm * (1/10)) (t + 1) (tierFold zq t cm m)
    else m

/-- outputs_per_sec: the base map, then, when the quality effect is truthy,
the redistribution across higher tiers. -/
def buildOutputs (rq : Int) (q : ℚ) (zq : QList) : QList :=
  let base := baseOutputs rq q zq
  if q ≠ 0 then tierLoop zq (5 - rq).toNat q (q * (9/10)) (rq + 1) base
  else base

/-- Transformation.__init__ assembled from the pieces above. -/
def mkTransformation (tname : Str) (r : Recipe) (rb : List (Str × Bonus))
    (machine : Machine) (s : MachineSettings) (mb : Bonus) : Transformation :=
  ⟨tname, r, machine, s, insOf r rb machine s mb,
    buildOutputs r.quality (qEffOf r rb machine s mb) (zqOf r rb machine s mb)⟩

/-! ### Quality recipe expansion and the Controller (controller.py) -/

/-- The no_quality_recipe test of generate_quality_recipes: all outputs
fluid, or all inputs fluid, or BASE_RESOURCE among the inputs. -/
def no_quality_recipe (r : Recipe) : Bool :=
  r.outputs.all (fun p => p.1.is_fluid)
    || r.inputs.all (fun p => p.1.is_fluid)
    || containsG r.inputs BASE_RESOURCE

/-- The quality-q copy of a recipe: renamed with the -q suffix, quality set,
inputs and outputs re-keyed through MakeItem at quality q; every other
field, outputs_no_productivity included, is carried over by the deep copy. -/
def qualityCopy (r : Recipe) (q : Int) : Recipe :=
  ⟨r.rname ++ "-q".data ++ (toString q).data, r.category, r.time,
    r.inputs.foldl (fun m p => upsertG m (MakeItem p.1.name q p.1.is_fluid) p.2) [],
    r.outputs.foldl (fun m p => upsertG m (MakeItem p.1.name q p.1.is_fluid) p.2) [],
    r.outputs_no_productivity, q, r.allow_productivity, r.allow_quality,
    r.max_productivity, r.is_mining⟩

def qualityRange : List Int := [1, 2, 3, 4, 5]

/-- generate_quality_recipes from controller.py. -/
def generate_quality_recipes (rs : List Recipe) : List Recipe :=
  rs.foldl
    (fun acc r =>
      if no_quality_recipe r then acc ++ [r]
      else acc ++ qualityRange.map (fun q => qualityCopy r q)) []

structure Controller where
  config : Configuration
  recipe_map : List (Str × Recipe)
  transformations : List Transformation
deriving DecidableEq

/-- The name-to-recipe dict comprehension of Controller.__init__. -/
def buildRecipeMap (rs : List Recipe) : List (Str × Recipe) :=
  rs.foldl (fun m r => upsertG m r.rname r) []

/-- uses_prod_modules from Controller.__init__ (None beacons are falsy). -/
def usesProdModules (s : MachineSettings) : Bool :=
  decide (0 < s.module.productivity)
    || (match s.beacon with
        | some b => decide (0 < b.effect.productivity)
        | none => false)

/-- uses_quality_modules from Controller.__init__. -/
def usesQualityModules (s : MachineSettings) : Bool :=
  decide (0 < s.module.quality)
    || (match s.beacon with
        | some b => decide (0 < b.effect.quality)
        | none => false)

/-- Controller.__init__: optional quality expansion, the recycling name
filter, the recipe map, and the transformation list over the cartesian
product of kept recipes and available machine settings, with the
productivity, quality and missing-category skips. -/
def mkController (config : Configuration) : Controller :=
  let recipes :=
    if config.enable_quality then generate_quality_recipes config.recipes
    else config.recipes
  let rmap :=
    if config.enable_recycling then buildRecipeMap recipes
    else
      buildRecipeMap (recipes.filter
        (fun r => !containsSub "-recycling".data r.rname || containsSub "scrap".data r.rname))
  let ts :=
    (rmap.map Prod.snd).flatMap (fun r =>
      config.machine_settings_available.filterMap (fun s =>
        if usesProdModules s ∧ ¬r.allow_productivity then none
        else if usesQualityModules s ∧ (¬config.enable_quality ∨ ¬r.allow_quality) then none
        else
          match getG? config.machines r.category with
          | none => none
          | some machine =>
              some (mkTransformation
                (r.rname ++ " [".data ++ s.sname ++ "]".data)
                r config.recipe_bonuses machine s config.mining_productivity)))
  ⟨config, rmap, ts⟩

/-! ### Valuation engine (controller.py compute_all_costs / iterate) -/

abbrev CostMap := List (Item × F)

/-- The initial cost map: every item referenced by any transformation's
inputs or outputs is set to resource_base_cost (read from the controller's
config at call time, as in the source). -/
def initCosts (c : Controller) : CostMap :=
  c.transformations.foldl
    (fun m t =>
      let m := t.inputs_per_sec.foldl
        (fun m p => upsertG m p.1 (F.fin c.config.resource_base_cost)) m
      t.outputs_per_sec.foldl
        (fun m p => upsertG m p.1 (F.fin c.config.resource_base_cost)) m) []

/-- sum(item_costs[i] * c for i, c in rates.items()): none models the
KeyError on a missing cost key. -/
def sumTermsF (costs : CostMap) : QList → F → Option F
  | [], acc => some acc
  | p :: rest, acc =>
    match getG? costs p.1 with
    | none => none
    | some v => sumTermsF costs rest (acc.add (v.mulQ p.2))

/-- The recycling discount accumulator: cost-weighted rates of same-name
outputs of strictly higher quality. -/
def discSum (costs : CostMap) (item : Item) : QList → F → Option F
  | [], acc => some acc
  | p :: rest, acc =>
    if item.name = p.1.name ∧ p.1.quality < item.quality then
      match getG? costs p.1 with
      | none => none
      | some v => discSum costs item rest (acc.add (v.mulQ p.2))
    else discSum costs item rest acc

/-- The full recycling discount: the accumulator scaled by 0.25 and by the
input/output cost ratio when the total output cost is truthy, else by 0. -/
def discountFor (recycling : Bool) (costs : CostMap) (outs : QList) (item : Item)
    (tin tout : F) : Option F :=
  if recycling then
    match discSum costs item outs (F.fin 0) with
    | none => none
    | some s =>
      let d := s.mulQ (1/4)
      some (if tout.truthy then d.mul (tin.div tout) else d.mulQ 0)
  else some (F.fin 0)

/-- The candidate-cost denominator: total rate of same-name outputs of
quality at least the item's. -/
def countFor (outs : QList) (item : Item) : ℚ :=
  ((outs.filter (fun p => decide (p.1.name = item.name ∧ item.quality ≤ p.1.quality))).map
    Prod.snd).sum

/-- The per-output-item loop of iterate: compute the discounted candidate
cost and keep it when it beats the best candidate so far. -/
def outLoop (recycling : Bool) (mtc : ℚ) (costs : CostMap) (outs : QList)
    (mining : Bool) (tin tout : F) : QList → CostMap → Option CostMap
  | [], acc => some acc
  | p :: rest, acc =>
    match discountFor recycling costs outs p.1 tin tout with
    | none => none
    | some d =>
      let tc := if mining then mtc * 10 else mtc
      match F.divQ (((F.fin tc).add tin).sub d) (countFor outs p.1) with
      | none => none
      | some v =>
        outLoop recycling mtc costs outs mining tin tout rest
          (if v.flt (getDG acc p.1 F.inf) then upsertG acc p.1 v else acc)

/-- The per-transformation loop of iterate. -/
def transLoop (recycling : Bool) (mtc : ℚ) (costs : CostMap) :
    List Transformation → CostMap → Option CostMap
  | [], acc => some acc
  | t :: rest, acc =>
    match sumTermsF costs t.inputs_per_sec (F.fin 0) with
    | none => none
    | some tin =>
      match sumTermsF costs t.outputs_per_sec (F.fin 0) with
      | none => none
      | some tout =>
        match outLoop recycling mtc costs t.outputs_per_sec t.recipe.is_mining tin tout
            t.outputs_per_sec acc with
        | none => none
        | some acc2 => transLoop recycling mtc costs rest acc2

/-- Items present in the old cost map but absent from new_costs become
unreachable this round and get +inf. -/
def fillMissing : CostMap → CostMap → CostMap
  | [], acc => acc
  | p :: rest, acc =>
    fillMissing rest (if containsG acc p.1 then acc else upsertG acc p.1 F.inf)

/-- One full iterate() pass: candidates over all transformations, the +inf
fill, and the forced BASE_RESOURCE cost. -/
def iterStep (recycling : Bool) (mtc rbc : ℚ) (ts : List Transformation)
    (costs : CostMap) : Option CostMap :=
  match transLoop recycling mtc costs ts [] with
  | none => none
  | some nc => some (upsertG (fillMissing costs nc) BASE_RESOURCE (F.fin rbc))

def iterN (recycling : Bool) (mtc rbc : ℚ) (ts : List Transformation) :
    Nat → CostMap → Option CostMap
  | 0, m => some m
  | k + 1, m =>
    match iterStep recycling mtc rbc ts m with
    | none => none
    | some m2 => iterN recycling mtc rbc ts k m2

/-- compute_all_costs restricted to the cost data: the source runs
`iterations` silent rounds plus one instrumented reporting round over the
same recurrence, so the returned per-item costs are the map after
iterations + 1 passes (the ranked transformation lists attached to the
result are reporting-only and are not modelled). The recycling flag and the
two scalar costs are read from the controller's config at call time,
exactly as iterate() reads self.config. -/
def computeAllCosts (c : Controller) (iterations : Nat) : Option CostMap :=
  iterN c.config.enable_recycling c.config.machine_time_cost c.config.resource_base_cost
    c.transformations (iterations + 1) (initCosts c)

/-! ### Concrete fixtures used by counterexamples and witnesses -/

def nfItem (s : String) (q : Int) : Item := ⟨s.data, q, false⟩

def machineBasic : Machine := ⟨"m".data, 1, 0, ZERO_BONUS⟩

def machineQuality (q : ℚ) : Machine := ⟨"m".data, 1, 0, ⟨"e".data, 0, 0, q⟩⟩

def settingsPlain : MachineSettings := ⟨"s".data, ZERO_BONUS, 0, none⟩

def recipeFix (nm : String) (ins outs nop : QList) (q : Int) : Recipe :=
  ⟨nm.data, "c".data, 1, ins, outs, nop, q, true, true, 3, false⟩

def configFix (rs : List Recipe) (m : Machine) : Configuration :=
  ⟨"cfg".data, false, false, 1, 1, [("c".data, m)], [settingsPlain], ZERO_BONUS, [], rs⟩

/-- The last recipe in the list carrying a given name, if any. -/
def lastNamed (rs : List Recipe) (n : Str) : Option Recipe :=
  rs.foldl (fun acc r => if r.rname = n then some r else acc) none

/-- Truncated tier sum with explicit fuel: the addend at tiers lo, lo+1,
and so on, fuel terms in all. -/
def tierSumFuel : Nat → QList → Str → Int → ℚ
  | 0, _, _, _ => 0
  | fuel + 1, m, nm, lo => getDG m (⟨nm, lo, false⟩ : Item) 0 + tierSumFuel fuel m nm (lo + 1)

/-- The total outputs_per_sec rate of the non-fluid item nm summed over the
quality tiers lo..5 (missing tiers count 0). -/
def tierSum (m : QList) (nm : Str) (lo : Int) : ℚ :=
  tierSumFuel (6 - lo).toNat m nm lo

/-- Non-fluid entries of a rate map carry pairwise distinct names. -/
def nfNamesDistinct (zq : QList) : Prop :=
  zq.Pairwise (fun a b => a.1.is_fluid = false → b.1.is_fluid = false → a.1.name ≠ b.1.name)

instance (zq : QList) : Decidable (nfNamesDistinct zq) := by
  unfold nfNamesDistinct
  infer_instance

/-- A float that is good or NaN: the shape of every intermediate candidate
value (NaN candidates are filtered out by the strict comparison before
storage). -/
def F.gn (v : F) : Prop := v = F.nan ∨ F.good v

/-! ### Lemmas about the serialization scanner -/

theorem startsWithS_append (pre rest : Str) : startsWithS pre (pre ++ rest) = true := by
  induction pre with
  | nil => rfl
  | cons c cs ih => simp [startsWithS, ih]

theorem lastQSplit_cons (c : Char) (rest : Str) :
    lastQSplit (c :: rest) =
      match lastQSplit rest with
      | some (p, tail) => some (c :: p, tail)
      | none => headQMatch c rest := by
  rfl

theorem lastQSplit_none_of_no_dash (l : Str) (h : ∀ c ∈ l, c ≠ '-') :
    lastQSplit l = none := by
  induction l with
  | nil => rfl
  | cons c rest ih =>
    have hrest : lastQSplit rest = none := ih (fun c hc => h c (List.mem_cons_of_mem _ hc))
    have hc : c ≠ '-' := h c (List.mem_cons_self _ _)
    have hhead : headQMatch c rest = none := by
      unfold headQMatch
      split
      · simp [hc]
      · rfl
    rw [lastQSplit_cons, hrest, hhead]

theorem digit_ne_dash {c : Char} (h : c.isDigit = true) : c ≠ '-' := by
  intro he
  subst he
  simp [Char.isDigit] at h

theorem lastQSplit_append (n : Str) (d : Char) (ds : Str) (hd : d.isDigit = true)
    (hds : ∀ c ∈ ds, c.isDigit = true) :
    lastQSplit (n ++ '-' :: 'q' :: d :: ds) = some (n, d :: ds) := by
  induction n with
  | nil =>
    have h1 : lastQSplit ('q' :: d :: ds) = none := by
      apply lastQSplit_none_of_no_dash
      intro c hc
      rcases List.mem_cons.mp hc with h | hc2
      · subst h; decide
      · rcases List.mem_cons.mp hc2 with h | hc3
        · subst h; exact digit_ne_dash hd
        · exact digit_ne_dash (hds c hc3)
    show lastQSplit ('-' :: 'q' :: d :: ds) = some ([], d :: ds)
    rw [lastQSplit_cons, h1]
    simp [headQMatch, hd]
  | cons c cs ih =>
    show lastQSplit (c :: (cs ++ '-' :: 'q' :: d :: ds)) = some (c :: cs, d :: ds)
    rw [lastQSplit_cons, ih]

theorem takeWhile_digits (l : Str) (h : ∀ c ∈ l, c.isDigit = true) :
    l.takeWhile Char.isDigit = l := by
  induction l with
  | nil => rfl
  | cons c cs ih =>
    simp [List.takeWhile_cons, h c (List.mem_cons_self _ _),
      ih (fun x hx => h x (List.mem_cons_of_mem _ hx))]

/-! ### Claims C9 and C10: serialization round trip and missing range check -/

/-- Claim C9 (corrected): the claim quantifies the round trip over every
valid Item with an arbitrary string name, but deserialize cannot undo
serialize when the serialized form collides with the fluid prefix or with
the quality-suffix pattern; C9_counterexample below shows the failure. The
round trip does hold for every valid item (quality in 1..5, fluids at
quality 1) whose serialized form does not start with the fluid prefix when
the item is not a fluid, and whose name contains no hyphen-q-digit
occurrence when the item is a non-fluid of quality 1. -/
theorem C9_roundtrip (it : Item)
    (hq1 : 1 ≤ it.quality) (hq5 : it.quality ≤ 5)
    (hfl : it.is_fluid = true → it.quality = 1)
    (hpre : it.is_fluid = false → startsWithS "fluid-".data it.serialize = false)
    (hname : it.is_fluid = false → it.quality = 1 → lastQSplit it.name = none) :
    Item.deserialize it.serialize = it := by
  obtain ⟨name, q, fl⟩ := it
  have hq1' : 1 ≤ q := hq1
  have hq5' : q ≤ 5 := hq5
  cases fl with
  | true =>
    have hq : q = 1 := hfl rfl
    subst hq
    show Item.deserialize ("fluid-".data ++ name) = ⟨name, 1, true⟩
    unfold Item.deserialize
    rw [startsWithS_append]
    have h6 : ("fluid-".data ++ name).drop 6 = name := by
      have h66 : (6 : Nat) = ("fluid-".data).length := by decide
      rw [h66, List.drop_left]
    simp [h6]
  | false =>
    by_cases hq : q = 1
    · subst hq
      have hser : Item.serialize ⟨name, 1, false⟩ = name := by
        simp [Item.serialize]
      have hpre2 := hpre rfl
      rw [hser] at hpre2 ⊢
      unfold Item.deserialize
      rw [hpre2]
      simp [hname rfl rfl]
    · have hser : Item.serialize ⟨name, q, false⟩ = name ++ "-q".data ++ (toString q).data := by
        simp [Item.serialize, hq]
      have hq2 : 2 ≤ q := by omega
      clear hq1 hq5
      have key : ∀ d : Char, d.isDigit = true → (toString q).data = [d] →
          digitsVal [d] = q → Item.deserialize (Item.serialize ⟨name, q, false⟩) =
            (⟨name, q, false⟩ : Item) := by
        intro d hd hts hdv
        have hpre2 := hpre rfl
        rw [hser] at hpre2 ⊢
        rw [hts] at hpre2 ⊢
        have hl : name ++ "-q".data ++ [d] = name ++ '-' :: 'q' :: d :: [] := by
          simp
        rw [hl] at hpre2 ⊢
        unfold Item.deserialize
        rw [hpre2]
        simp only [Bool.false_eq_true, if_false]
        rw [lastQSplit_append name d [] hd (by intro c hc; cases hc)]
        simp [List.takeWhile, hd, hdv]
      interval_cases q
      · exact key '2' (by decide) (by decide) (by decide)
      · exact key '3' (by decide) (by decide) (by decide)
      · exact key '4' (by decide) (by decide) (by decide)
      · exact key '5' (by decide) (by decide) (by decide)

/-- Witness for C9_roundtrip at the non-fluid quality-3 item named iron. -/
theorem C9_roundtrip_witness :
    Item.deserialize (Item.serialize ⟨"iron".data, 3, false⟩) = ⟨"iron".data, 3, false⟩ :=
  C9_roundtrip ⟨"iron".data, 3, false⟩ (by decide) (by decide)
    (fun h => by cases h) (fun _ => by decide) (fun _ h => absurd h (by decide))

/-- Claim C9 counterexample: the valid quality-1 item named a-q2 serializes
to its bare name, which deserialize reads back as the item a at quality 2,
so the round trip fails on this valid item. -/
theorem C9_counterexample :
    Item.deserialize (Item.serialize ⟨"a-q2".data, 1, false⟩) = ⟨"a".data, 2, false⟩
      ∧ (⟨"a".data, 2, false⟩ : Item) ≠ ⟨"a-q2".data, 1, false⟩ := by
  constructor
  · decide
  · decide

/-- Claim C10 (corrected): deserialize applies int() to the digits of the
rightmost hyphen-q-digits occurrence with no range check, and the Item
constructor accepts any integer quality; but when the overall string starts
with the fluid prefix the fluid branch wins, so the claim's universal form
over every name fails (C10_counterexample). For every name whose
combination with the suffix does not start with the fluid prefix, any
nonempty digit sequence n, even outside 1..5, deserializes to
Item(name, n) without error. -/
theorem C10_no_range_check (n ds : Str) (hne : ds ≠ [])
    (hds : ∀ c ∈ ds, c.isDigit = true)
    (hpre : startsWithS "fluid-".data (n ++ "-q".data ++ ds) = false) :
    Item.deserialize (n ++ "-q".data ++ ds) = ⟨n, digitsVal ds, false⟩ := by
  cases ds with
  | nil => exact absurd rfl hne
  | cons d tl =>
    have hd : d.isDigit = true := hds d (List.mem_cons_self _ _)
    have htl : ∀ c ∈ tl, c.isDigit = true := fun c hc => hds c (List.mem_cons_of_mem _ hc)
    have hl : n ++ "-q".data ++ (d :: tl) = n ++ '-' :: 'q' :: d :: tl := by simp
    rw [hl] at hpre ⊢
    unfold Item.deserialize
    rw [hpre]
    simp only [Bool.false_eq_true, if_false]
    rw [lastQSplit_append n d tl hd htl]
    simp [takeWhile_digits (d :: tl) hds]

/-- Witness for C10_no_range_check: the string a-q12 deserializes to the
item a at the out-of-range quality 12 without raising. -/
theorem C10_no_range_check_witness :
    Item.deserialize ("a".data ++ "-q".data ++ "12".data) = ⟨"a".data, digitsVal "12".data, false⟩ :=
  C10_no_range_check "a".data "12".data (by decide) (by decide) (by decide)

/-- Claim C10 counterexample: for the name fluid-a and digits 2 the string
fluid-a-q2 takes the fluid branch, so deserialize returns the fluid a-q2
instead of Item(name=fluid-a, quality=2) as the claim requires. -/
theorem C10_counterexample :
    Item.deserialize ("fluid-a".data ++ "-q".data ++ "2".data) = ⟨"a-q2".data, 1, true⟩
      ∧ (⟨"a-q2".data, 1, true⟩ : Item) ≠ ⟨"fluid-a".data, 2, false⟩ := by
  constructor
  · decide
  · decide

/-! ### Lemmas about the association-list dict model -/

theorem getG?_nil {κ β : Type} [DecidableEq κ] (k : κ) :
    getG? ([] : List (κ × β)) k = none := rfl

theorem getG?_cons {κ β : Type} [DecidableEq κ] (p : κ × β) (m : List (κ × β)) (k : κ) :
    getG? (p :: m) k = if p.1 = k then some p.2 else getG? m k := rfl

theorem getG?_upsert_self {κ β : Type} [DecidableEq κ] (m : List (κ × β)) (k : κ) (v : β) :
    getG? (upsertG m k v) k = some v := by
  induction m with
  | nil => simp [upsertG, getG?_cons]
  | cons p rest ih =>
    by_cases h : p.1 = k
    · simp [upsertG, h, getG?_cons]
    · simp [upsertG, h, getG?_cons, ih]

theorem getG?_upsert_ne {κ β : Type} [DecidableEq κ] (m : List (κ × β)) (k k' : κ) (v : β)
    (h : k' ≠ k) : getG? (upsertG m k v) k' = getG? m k' := by
  induction m with
  | nil => simp [upsertG, getG?_cons, getG?_nil, Ne.symm h]
  | cons p rest ih =>
    by_cases hp : p.1 = k
    · subst hp
      simp [upsertG, getG?_cons, Ne.symm h]
    · simp [upsertG, hp, getG?_cons, ih]

theorem mem_upsertG {κ β : Type} [DecidableEq κ] (m : List (κ × β)) (k : κ) (v : β) (p : κ × β)
    (h : p ∈ upsertG m k v) : p = (k, v) ∨ p ∈ m := by
  induction m with
  | nil => simpa [upsertG] using h
  | cons q rest ih =>
    by_cases hq : q.1 = k
    · simp [upsertG, hq] at h
      rcases h with h | h
      · left; simp [h]
      · right; exact List.mem_cons_of_mem _ h
    · simp [upsertG, hq] at h
      rcases h with h | h
      · right; exact List.mem_cons.mpr (Or.inl h)
      · rcases ih h with h2 | h2
        · left; exact h2
        · right; exact List.mem_cons_of_mem _ h2

theorem getG?_mem {κ β : Type} [DecidableEq κ] {m : List (κ × β)} {k : κ} {v : β}
    (h : getG? m k = some v) : (k, v) ∈ m := by
  induction m with
  | nil => simp [getG?_nil] at h
  | cons p rest ih =>
    rw [getG?_cons] at h
    by_cases hp : p.1 = k
    · rw [if_pos hp] at h
      refine List.mem_cons.mpr (Or.inl ?_)
      obtain ⟨p1, p2⟩ := p
      simp only at hp
      simp at h
      simp [hp, h]
    · rw [if_neg hp] at h
      exact List.mem_cons_of_mem _ (ih h)

theorem containsG_of_getG? {κ β : Type} [DecidableEq κ] {m : List (κ × β)} {k : κ} {v : β}
    (h : getG? m k = some v) : containsG m k = true := by
  simp [containsG, h]

theorem getG?_isSome_of_contains {κ β : Type} [DecidableEq κ] {m : List (κ × β)} {k : κ}
    (h : containsG m k = true) : ∃ v, getG? m k = some v := by
  simp [containsG, Option.isSome_iff_exists] at h
  exact h

theorem containsG_of_mem {κ β : Type} [DecidableEq κ] {m : List (κ × β)} {p : κ × β}
    (h : p ∈ m) : containsG m p.1 = true := by
  induction m with
  | nil => cases h
  | cons q rest ih =>
    rcases List.mem_cons.mp h with h | h
    · subst h
      simp [containsG, getG?_cons]
    · by_cases hq : q.1 = p.1
      · simp [containsG, getG?_cons, hq]
      · simp [containsG, getG?_cons, hq]
        exact ih h

theorem mem_eraseG {κ β : Type} [DecidableEq κ] (m : List (κ × β)) (k : κ) (p : κ × β)
    (h : p ∈ eraseG m k) : p ∈ m := by
  induction m with
  | nil => simp [eraseG] at h
  | cons q rest ih =>
    by_cases hq : q.1 = k
    · simp [eraseG, hq] at h
      exact List.mem_cons_of_mem _ h
    · simp [eraseG, hq] at h
      rcases h with h | h
      · exact List.mem_cons.mpr (Or.inl h)
      · exact List.mem_cons_of_mem _ (ih h)

theorem containsG_eraseG_ne {κ β : Type} [DecidableEq κ] (m : List (κ × β)) (k k' : κ)
    (h : k' ≠ k) : containsG (eraseG m k) k' = containsG m k' := by
  induction m with
  | nil => simp [eraseG]
  | cons q rest ih =>
    by_cases hq : q.1 = k
    · subst hq
      have he : eraseG (q :: rest) q.1 = rest := by simp [eraseG]
      rw [he]
      simp only [containsG, getG?_cons, if_neg (fun hh : q.1 = k' => h hh.symm)]
    · simp only [eraseG, if_neg hq]
      by_cases hq' : q.1 = k'
      · simp [containsG, getG?_cons, hq']
      · simp only [containsG, getG?_cons, if_neg hq'] at ih ⊢
        exact ih

theorem containsG_eraseG_self {κ β : Type} [DecidableEq κ] (m : List (κ × β)) (k : κ)
    (hnd : (keysG m).Nodup) : containsG (eraseG m k) k = false := by
  induction m with
  | nil => simp [eraseG, containsG, getG?_nil]
  | cons q rest ih =>
    have hnd2 : (keysG rest).Nodup := (List.nodup_cons.mp hnd).2
    by_cases hq : q.1 = k
    · subst hq
      have hout : q.1 ∉ keysG rest := (List.nodup_cons.mp hnd).1
      simp only [eraseG, if_pos rfl]
      by_contra hcon
      simp only [Bool.not_eq_false] at hcon
      obtain ⟨v, hv⟩ := getG?_isSome_of_contains hcon
      exact hout (by simpa [keysG] using List.mem_map_of_mem Prod.fst (getG?_mem hv))
    · simp only [eraseG, if_neg hq, containsG, getG?_cons, if_neg hq]
      simpa [containsG] using ih hnd2

theorem keysG_nodup_upsertG {κ β : Type} [DecidableEq κ] (m : List (κ × β)) (k : κ) (v : β)
    (hnd : (keysG m).Nodup) : (keysG (upsertG m k v)).Nodup := by
  induction m with
  | nil =>
    show ([k] : List κ).Nodup
    exact List.nodup_singleton k
  | cons q rest ih =>
    obtain ⟨hq, hrest⟩ := List.nodup_cons.mp hnd
    by_cases h : q.1 = k
    · subst h
      have he : upsertG (q :: rest) q.1 v = (q.1, v) :: rest := by simp [upsertG]
      rw [he]
      exact List.nodup_cons.mpr ⟨hq, hrest⟩
    · simp only [upsertG, if_neg h]
      refine List.nodup_cons.mpr ⟨?_, ih hrest⟩
      intro hmem
      rcases List.mem_map.mp hmem with ⟨p, hp, hpk⟩
      rcases mem_upsertG rest k v p hp with h2 | h2
      · exact h (by rw [h2] at hpk; simp at hpk; exact hpk.symm)
      · exact absurd (by simpa [keysG, hpk] using List.mem_map_of_mem Prod.fst h2) hq

theorem containsG_upsertG_of {κ β : Type} [DecidableEq κ] (m : List (κ × β)) (k k' : κ) (v : β)
    (h : containsG m k' = true) : containsG (upsertG m k v) k' = true := by
  by_cases hk : k' = k
  · subst hk
    simp [containsG, getG?_upsert_self]
  · rw [containsG, getG?_upsert_ne m k k' v hk]
    exact h

theorem containsG_upsertG_self {κ β : Type} [DecidableEq κ] (m : List (κ × β)) (k : κ) (v : β) :
    containsG (upsertG m k v) k = true := by
  simp [containsG, getG?_upsert_self]

theorem containsG_upsertG_cases {κ β : Type} [DecidableEq κ] (m : List (κ × β)) (k k' : κ) (v : β)
    (h : containsG (upsertG m k v) k' = true) : k' = k ∨ containsG m k' = true := by
  by_cases hk : k' = k
  · exact Or.inl hk
  · right
    rw [containsG, getG?_upsert_ne m k k' v hk] at h
    exact h

/-- Value-origin lemma for a fold whose every step either keeps entries or
introduces entries described by P. -/
theorem mem_foldl_step {κ β α : Type} (step : List (κ × β) → α → List (κ × β))
    (P : α → (κ × β) → Prop)
    (h : ∀ m x p, p ∈ step m x → p ∈ m ∨ P x p) :
    ∀ (l : List α) (init : List (κ × β)) (p : κ × β),
      p ∈ List.foldl step init l → p ∈ init ∨ ∃ x ∈ l, P x p := by
  intro l
  induction l with
  | nil => intro init p hp; exact Or.inl hp
  | cons x rest ih =>
    intro init p hp
    rcases ih (step init x) p hp with h2 | h2
    · rcases h init x p h2 with h3 | h3
      · exact Or.inl h3
      · exact Or.inr ⟨x, List.mem_cons_self _ _, h3⟩
    · rcases h2 with ⟨y, hy, hP⟩
      exact Or.inr ⟨y, List.mem_cons_of_mem _ hy, hP⟩

/-- Key-origin lemma in the same style. -/
theorem contains_foldl_step {κ β α : Type} [DecidableEq κ]
    (step : List (κ × β) → α → List (κ × β)) (Q : α → κ → Prop)
    (h : ∀ m x k, containsG (step m x) k = true → containsG m k = true ∨ Q x k) :
    ∀ (l : List α) (init : List (κ × β)) (k : κ),
      containsG (List.foldl step init l) k = true →
        containsG init k = true ∨ ∃ x ∈ l, Q x k := by
  intro l
  induction l with
  | nil => intro init k hk; exact Or.inl hk
  | cons x rest ih =>
    intro init k hk
    rcases ih (step init x) k hk with h2 | h2
    · rcases h init x k h2 with h3 | h3
      · exact Or.inl h3
      · exact Or.inr ⟨x, List.mem_cons_self _ _, h3⟩
    · rcases h2 with ⟨y, hy, hQ⟩
      exact Or.inr ⟨y, List.mem_cons_of_mem _ hy, hQ⟩

/-- Keys are preserved by a fold whose steps preserve keys. -/
theorem contains_foldl_mono {κ β α : Type} [DecidableEq κ]
    (step : List (κ × β) → α → List (κ × β))
    (h : ∀ m x k, containsG m k = true → containsG (step m x) k = true) :
    ∀ (l : List α) (init : List (κ × β)) (k : κ),
      containsG init k = true → containsG (List.foldl step init l) k = true := by
  intro l
  induction l with
  | nil => intro init k hk; exact hk
  | cons x rest ih => intro init k hk; exact ih (step init x) k (h init x k hk)

/-! ### Claim C4: recipe-name collisions during expansion -/

theorem getG?_buildRecipeMap_aux (rs : List Recipe) :
    ∀ (init : List (Str × Recipe)) (n : Str),
      getG? (rs.foldl (fun m r => upsertG m r.rname r) init) n =
        rs.foldl (fun acc r => if r.rname = n then some r else acc) (getG? init n) := by
  induction rs with
  | nil => intro init n; rfl
  | cons r rest ih =>
    intro init n
    show getG? (rest.foldl (fun m r => upsertG m r.rname r) (upsertG init r.rname r)) n = _
    rw [ih]
    by_cases he : r.rname = n
    · subst he
      rw [getG?_upsert_self]
      simp
    · rw [getG?_upsert_ne init r.rname n r (fun hh => he hh.symm)]
      simp [he]

/-- Claim C4 (corrected): recipe expansion does output a mapping from name
to Recipe, but when two recipes share a name after expansion no error is
raised: the dict comprehension silently keeps the later recipe (the source
has no ConfigError at all). The lookup of the built map is the last recipe
of the list with that name. -/
theorem C4_recipe_map_last_wins (rs : List Recipe) (n : Str) :
    getG? (buildRecipeMap rs) n = lastNamed rs n := by
  show getG? (rs.foldl (fun m r => upsertG m r.rname r) []) n = _
  rw [getG?_buildRecipeMap_aux rs [] n]
  rfl

/-- Claim C4 counterexample: a configuration whose recipe list repeats the
name r (with different recipe bodies) constructs a Controller whose map
holds only the second recipe; construction succeeds instead of failing
with a ConfigError. -/
theorem C4_counterexample :
    (mkController (configFix
        [recipeFix "r" [(nfItem "a" 1, 1)] [(nfItem "b" 1, 1)] [] 1,
         recipeFix "r" [(nfItem "a" 1, 2)] [(nfItem "b" 1, 2)] [] 1]
        machineBasic)).recipe_map
      = [("r".data, recipeFix "r" [(nfItem "a" 1, 2)] [(nfItem "b" 1, 2)] [] 1)] := by
  decide

/-! ### Claim C7: effect of mutating the Configuration after construction -/

/-- Claim C7 (corrected): the engine does hold its own derived recipe map
and Transformations, so post-construction mutation of the recipe list, the
machines, the machine settings, the bonuses or the quality flag cannot
change compute_all_costs; but iterate() reads enable_recycling,
machine_time_cost and resource_base_cost from self.config at call time, so
mutating those fields does change results (C7_counterexample). Mutations
leaving those three fields intact have no effect. -/
theorem C7_config_capture (ctrl : Controller) (cfg2 : Configuration) (n : Nat)
    (h1 : cfg2.enable_recycling = ctrl.config.enable_recycling)
    (h2 : cfg2.machine_time_cost = ctrl.config.machine_time_cost)
    (h3 : cfg2.resource_base_cost = ctrl.config.resource_base_cost) :
    computeAllCosts ⟨cfg2, ctrl.recipe_map, ctrl.transformations⟩ n
      = computeAllCosts ctrl n := by
  simp only [computeAllCosts, initCosts, h1, h2, h3]

/-- Witness for C7_config_capture: renaming the configuration and dropping
its recipe list after construction leaves the result unchanged. -/
theorem C7_config_capture_witness :
    computeAllCosts
      ⟨⟨"other".data, false, false, 1, 1, [], [], ZERO_BONUS, [],
          []⟩,
        (mkController (configFix [recipeFix "r" [(nfItem "a" 1, 1)] [(nfItem "b" 1, 1)] [] 1]
          machineBasic)).recipe_map,
        (mkController (configFix [recipeFix "r" [(nfItem "a" 1, 1)] [(nfItem "b" 1, 1)] [] 1]
          machineBasic)).transformations⟩ 2
      = computeAllCosts (mkController (configFix
          [recipeFix "r" [(nfItem "a" 1, 1)] [(nfItem "b" 1, 1)] [] 1] machineBasic)) 2 :=
  C7_config_capture
    (mkController (configFix [recipeFix "r" [(nfItem "a" 1, 1)] [(nfItem "b" 1, 1)] [] 1]
      machineBasic))
    ⟨"other".data, false, false, 1, 1, [], [], ZERO_BONUS, [], []⟩ 2 rfl rfl rfl

/-- Claim C7 counterexample: raising machine_time_cost from 1 to 3 on the
stored config after construction changes the computed cost of b from 2 to
4, refuting the claim that post-construction mutation has no effect. -/
theorem C7_counterexample :
    computeAllCosts
      ⟨⟨"cfg".data, false, false, 3, 1, [("c".data, machineBasic)], [settingsPlain],
          ZERO_BONUS, [], [recipeFix "r" [(nfItem "a" 1, 1)] [(nfItem "b" 1, 1)] [] 1]⟩,
        (mkController (configFix [recipeFix "r" [(nfItem "a" 1, 1)] [(nfItem "b" 1, 1)] [] 1]
          machineBasic)).recipe_map,
        (mkController (configFix [recipeFix "r" [(nfItem "a" 1, 1)] [(nfItem "b" 1, 1)] [] 1]
          machineBasic)).transformations⟩ 0
      ≠ computeAllCosts (mkController (configFix
          [recipeFix "r" [(nfItem "a" 1, 1)] [(nfItem "b" 1, 1)] [] 1] machineBasic)) 0 := by
  norm_num [computeAllCosts, mkController, configFix, recipeFix, nfItem, machineBasic,
    settingsPlain, mkTransformation, insOf, zqOf, qEffOf, extraEffects, rateOf, inputRates,
    zeroQualityRates, netCatalysts, netStep, buildOutputs, baseOutputs, tierLoop, tierFold,
    MachineSettings.effect_total, Bonus.add, Bonus.smul, ZERO_BONUS, getDG, getG?, upsertG,
    keysG, containsG, eraseG, addToG, Clamp, ClampLo, buildRecipeMap, containsSub, startsWithS,
    usesProdModules, usesQualityModules, initCosts, iterN, iterStep, transLoop, outLoop,
    sumTermsF, discSum, discountFor, countFor, fillMissing, F.add, F.sub, F.neg, F.mulQ,
    F.mul, F.div, F.divQ, F.flt, F.truthy, BASE_RESOURCE, Fluid, MakeItem,
    List.filter, MAX_QUALITY]
  split_ifs <;> simp_all

/-! ### Claim C6: positivity of the candidate-cost denominator -/

theorem countFor_pos (outs : QList) (p : Item × ℚ) (hp : p ∈ outs)
    (hpos : ∀ q ∈ outs, 0 < q.2) : 0 < countFor outs p.1 := by
  have hmem : p ∈ outs.filter
      (fun q => decide (q.1.name = p.1.name ∧ p.1.quality ≤ q.1.quality)) := by
    refine List.mem_filter.mpr ⟨hp, ?_⟩
    simp
  refine List.sum_pos _ ?_ ?_
  · intro x hx
    rcases List.mem_map.mp hx with ⟨q, hq, hqx⟩
    exact hqx ▸ hpos q (List.mem_of_mem_filter hq)
  · intro hnil
    rw [List.map_eq_nil_iff] at hnil
    rw [hnil] at hmem
    cases hmem

/-- Claim C6 (corrected): for a constructed Transformation the candidate
denominator count always contains the item's own entry, but that entry's
rate can be zero (for instance from a zero output count in the recipe), in
which case iterate divides by zero (C6_counterexample, where the embedded
engine returns none, modelling Python's ZeroDivisionError). When every
outputs_per_sec rate of the transformation is positive, the denominator is
strictly positive for every output item. -/
theorem C6_count_positive (tn : Str) (r : Recipe) (rb : List (Str × Bonus))
    (machine : Machine) (s : MachineSettings) (mb : Bonus)
    (hpos : ∀ q ∈ (mkTransformation tn r rb machine s mb).outputs_per_sec, 0 < q.2) :
    ∀ p ∈ (mkTransformation tn r rb machine s mb).outputs_per_sec,
      0 < countFor (mkTransformation tn r rb machine s mb).outputs_per_sec p.1 :=
  fun p hp => countFor_pos _ p hp hpos

/-- Witness for C6_count_positive on the one-recipe fixture a to b. -/
theorem C6_count_positive_witness :
    0 < countFor (mkTransformation "t".data
        (recipeFix "r" [(nfItem "a" 1, 1)] [(nfItem "b" 1, 1)] [] 1)
        [] machineBasic settingsPlain ZERO_BONUS).outputs_per_sec (nfItem "b" 1) := by
  have hout : (mkTransformation "t".data
      (recipeFix "r" [(nfItem "a" 1, 1)] [(nfItem "b" 1, 1)] [] 1)
      [] machineBasic settingsPlain ZERO_BONUS).outputs_per_sec = [(nfItem "b" 1, 1)] := by
    norm_num +decide [mkTransformation, insOf, zqOf, qEffOf, extraEffects, rateOf, inputRates,
      zeroQualityRates, netCatalysts, netStep, buildOutputs, baseOutputs, tierLoop, tierFold,
      MachineSettings.effect_total, Bonus.add, Bonus.smul, ZERO_BONUS, getDG, getG?, upsertG,
      keysG, containsG, eraseG, addToG, Clamp, ClampLo, recipeFix, nfItem, machineBasic,
      settingsPlain, Fluid, MakeItem, MAX_QUALITY, List.filter_cons, List.filter_nil]
  exact C6_count_positive "t".data
    (recipeFix "r" [(nfItem "a" 1, 1)] [(nfItem "b" 1, 1)] [] 1)
    [] machineBasic settingsPlain ZERO_BONUS
    (by rw [hout]; norm_num)
    (nfItem "b" 1, 1) (by rw [hout]; norm_num)

/-- Claim C6 counterexample: a recipe whose output b has count 0 is
admitted by every construction-time filter, yet its transformation has
count 0 for b, and running the engine divides by zero (the embedded
compute returns none, the model of ZeroDivisionError). -/
theorem C6_counterexample :
    ((mkController (configFix [recipeFix "r" [(nfItem "a" 1, 1)] [(nfItem "b" 1, 0)] [] 1]
        machineBasic)).transformations.head?).map
      (fun t => (containsG t.outputs_per_sec (nfItem "b" 1),
        countFor t.outputs_per_sec (nfItem "b" 1))) = some (true, 0)
    ∧ computeAllCosts (mkController (configFix
        [recipeFix "r" [(nfItem "a" 1, 1)] [(nfItem "b" 1, 0)] [] 1] machineBasic)) 0 = none := by
  constructor <;>
  · norm_num +decide [computeAllCosts, mkController, configFix, recipeFix, nfItem, machineBasic,
      settingsPlain, mkTransformation, insOf, zqOf, qEffOf, extraEffects, rateOf, inputRates,
      zeroQualityRates, netCatalysts, netStep, buildOutputs, baseOutputs, tierLoop, tierFold,
      MachineSettings.effect_total, Bonus.add, Bonus.smul, ZERO_BONUS, getDG, getG?, upsertG,
      keysG, containsG, eraseG, addToG, Clamp, ClampLo, buildRecipeMap, containsSub,
      startsWithS, usesProdModules, usesQualityModules, initCosts, iterN, iterStep, transLoop,
      outLoop, sumTermsF, discSum, discountFor, countFor, fillMissing, F.add, F.sub, F.neg,
      F.mulQ, F.mul, F.div, F.divQ, F.flt, F.truthy, BASE_RESOURCE, Fluid, MakeItem,
      List.filter_cons, List.filter_nil, MAX_QUALITY]

/-! ### Claim C5: behaviour of costs as the iteration count grows -/

theorem iterN_add (recycling : Bool) (mtc rbc : ℚ) (ts : List Transformation) (a b : Nat) :
    ∀ m, iterN recycling mtc rbc ts (a + b) m =
      match iterN recycling mtc rbc ts a m with
      | none => none
      | some m2 => iterN recycling mtc rbc ts b m2 := by
  induction a with
  | zero => intro m; simp [iterN]
  | succ a ih =>
    intro m
    have he : a + 1 + b = (a + b) + 1 := by omega
    rw [he]
    show (match iterStep recycling mtc rbc ts m with
      | none => none
      | some m2 => iterN recycling mtc rbc ts (a + b) m2) = _
    cases hs : iterStep recycling mtc rbc ts m with
    | none => simp [iterN, hs]
    | some m2 =>
      have hR : iterN recycling mtc rbc ts (a + 1) m = iterN recycling mtc rbc ts a m2 := by
        show (match iterStep recycling mtc rbc ts m with
          | none => none
          | some mm => iterN recycling mtc rbc ts a mm) = _
        rw [hs]
      rw [hR]
      exact ih m2

theorem iterN_fix (recycling : Bool) (mtc rbc : ℚ) (ts : List Transformation) (mfix : CostMap)
    (hfix : iterStep recycling mtc rbc ts mfix = some mfix) :
    ∀ k, iterN recycling mtc rbc ts k mfix = some mfix := by
  intro k
  induction k with
  | zero => rfl
  | succ k ih =>
    show (match iterStep recycling mtc rbc ts mfix with
      | none => none
      | some m2 => iterN recycling mtc rbc ts k m2) = some mfix
    rw [hfix]
    exact ih

/-- Claim C5 (corrected): increasing the iteration count can increase a
cost: an item fed by an unproducible input starts at the finite base-cost
estimate and climbs to +inf over later rounds (C5_counterexample, where the
cost of c rises from 3 to +inf between 1 and 2 iterations). What does hold
is stability from convergence on: once the cost map returned after n
iterations is a fixed point of the iteration step, every higher iteration
count returns exactly the same costs. -/
theorem C5_converged_stable (c : Controller) (n m : Nat) (res : CostMap)
    (hnm : n ≤ m)
    (hres : computeAllCosts c n = some res)
    (hfix : iterStep c.config.enable_recycling c.config.machine_time_cost
      c.config.resource_base_cost c.transformations res = some res) :
    computeAllCosts c m = some res := by
  have he : m + 1 = (n + 1) + (m - n) := by omega
  show iterN _ _ _ _ (m + 1) _ = some res
  rw [he, iterN_add]
  rw [show iterN c.config.enable_recycling c.config.machine_time_cost
    c.config.resource_base_cost c.transformations (n + 1) (initCosts c) = some res from hres]
  exact iterN_fix _ _ _ _ res hfix (m - n)

/-- Witness for C5_converged_stable: the base-resource-to-ore fixture
converges after the first pass, and 2 further iterations return the same
map. -/
theorem C5_converged_stable_witness :
    computeAllCosts (mkController (configFix
      [recipeFix "ro" [(BASE_RESOURCE, 1)] [(nfItem "ore" 1, 1)] [] 1] machineBasic)) 2
      = some [(nfItem "ore" 1, F.fin 2), (BASE_RESOURCE, F.fin 1)] :=
  C5_converged_stable
    (mkController (configFix
      [recipeFix "ro" [(BASE_RESOURCE, 1)] [(nfItem "ore" 1, 1)] [] 1] machineBasic))
    0 2 [(nfItem "ore" 1, F.fin 2), (BASE_RESOURCE, F.fin 1)]
    (by omega)
    (by norm_num +decide [computeAllCosts, mkController, configFix, recipeFix, nfItem,
      machineBasic, settingsPlain, mkTransformation, insOf, zqOf, qEffOf, extraEffects, rateOf,
      inputRates, zeroQualityRates, netCatalysts, netStep, buildOutputs, baseOutputs, tierLoop,
      tierFold, MachineSettings.effect_total, Bonus.add, Bonus.smul, ZERO_BONUS, getDG, getG?,
      upsertG, keysG, containsG, eraseG, addToG, Clamp, ClampLo, buildRecipeMap, containsSub,
      startsWithS, usesProdModules, usesQualityModules, initCosts, iterN, iterStep, transLoop,
      outLoop, sumTermsF, discSum, discountFor, countFor, fillMissing, F.add, F.sub, F.neg,
      F.mulQ, F.mul, F.div, F.divQ, F.flt, F.truthy, BASE_RESOURCE, Fluid, MakeItem,
      List.filter_cons, List.filter_nil, MAX_QUALITY])
    (by norm_num +decide [mkController, configFix, recipeFix, nfItem, machineBasic,
      settingsPlain, mkTransformation, insOf, zqOf, qEffOf, extraEffects, rateOf, inputRates,
      zeroQualityRates, netCatalysts, netStep, buildOutputs, baseOutputs, tierLoop, tierFold,
      MachineSettings.effect_total, Bonus.add, Bonus.smul, ZERO_BONUS, getDG, getG?, upsertG,
      keysG, containsG, eraseG, addToG, Clamp, ClampLo, buildRecipeMap, containsSub,
      startsWithS, usesProdModules, usesQualityModules, iterStep, transLoop, outLoop,
      sumTermsF, discSum, discountFor, countFor, fillMissing, F.add, F.sub, F.neg, F.mulQ,
      F.mul, F.div, F.divQ, F.flt, F.truthy, BASE_RESOURCE, Fluid, MakeItem,
      List.filter_cons, List.filter_nil, MAX_QUALITY])

/-- Claim C5 counterexample: in the chain a to b to c where nothing
produces a, the cost of c after 1 iteration is 3 but after 2 iterations is
+inf, so increasing iterations increased the cost. -/
theorem C5_counterexample :
    (computeAllCosts (mkController (configFix
        [recipeFix "rb" [(nfItem "a" 1, 1)] [(nfItem "b" 1, 1)] [] 1,
         recipeFix "rc" [(nfItem "b" 1, 1)] [(nfItem "c" 1, 1)] [] 1] machineBasic)) 1).map
      (fun mm => getG? mm (nfItem "c" 1)) = some (some (F.fin 3))
    ∧ (computeAllCosts (mkController (configFix
        [recipeFix "rb" [(nfItem "a" 1, 1)] [(nfItem "b" 1, 1)] [] 1,
         recipeFix "rc" [(nfItem "b" 1, 1)] [(nfItem "c" 1, 1)] [] 1] machineBasic)) 2).map
      (fun mm => getG? mm (nfItem "c" 1)) = some (some F.inf)
    ∧ F.fle F.inf (F.fin 3) = false := by
  refine ⟨?_, ?_, by decide⟩ <;>
  · norm_num +decide [computeAllCosts, mkController, configFix, recipeFix, nfItem,
      machineBasic, settingsPlain, mkTransformation, insOf, zqOf, qEffOf, extraEffects, rateOf,
      inputRates, zeroQualityRates, netCatalysts, netStep, buildOutputs, baseOutputs, tierLoop,
      tierFold, MachineSettings.effect_total, Bonus.add, Bonus.smul, ZERO_BONUS, getDG, getG?,
      upsertG, keysG, containsG, eraseG, addToG, Clamp, ClampLo, buildRecipeMap, containsSub,
      startsWithS, usesProdModules, usesQualityModules, initCosts, iterN, iterStep, transLoop,
      outLoop, sumTermsF, discSum, discountFor, countFor, fillMissing, F.add, F.sub, F.neg,
      F.mulQ, F.mul, F.div, F.divQ, F.flt, F.truthy, BASE_RESOURCE, Fluid, MakeItem,
      List.filter_cons, List.filter_nil, MAX_QUALITY]

/-! ### Claim C8: shape of the quality-tier recipe expansion -/

/-- Claim C8 (corrected): when quality is enabled, each quality-eligible
recipe (one with a non-fluid input, a non-fluid output and BASE_RESOURCE
not among the inputs) is replaced by exactly 5 copies, the q-th renamed
with the -q suffix, carrying quality q, with every input and output Item
re-keyed to the same name and fluidness at quality q (fluids staying at
quality 1); but the items of outputs_no_productivity are NOT rewritten:
the deep copy carries that map over unchanged (C8_counterexample). -/
theorem C8_quality_expansion (r : Recipe) (h : no_quality_recipe r = false) :
    generate_quality_recipes [r] = qualityRange.map (qualityCopy r)
    ∧ ((∃ p ∈ r.inputs, p.1.is_fluid = false) ∧ (∃ p ∈ r.outputs, p.1.is_fluid = false)
        ∧ containsG r.inputs BASE_RESOURCE = false)
    ∧ ∀ q : Int,
        (qualityCopy r q).rname = r.rname ++ "-q".data ++ (toString q).data
        ∧ (qualityCopy r q).quality = q
        ∧ (qualityCopy r q).outputs_no_productivity = r.outputs_no_productivity
        ∧ (qualityCopy r q).category = r.category
        ∧ (qualityCopy r q).time = r.time
        ∧ (qualityCopy r q).allow_productivity = r.allow_productivity
        ∧ (qualityCopy r q).allow_quality = r.allow_quality
        ∧ (qualityCopy r q).max_productivity = r.max_productivity
        ∧ (qualityCopy r q).is_mining = r.is_mining
        ∧ (∀ p ∈ (qualityCopy r q).inputs, ∃ p0 ∈ r.inputs,
            p.1 = MakeItem p0.1.name q p0.1.is_fluid ∧ p.2 = p0.2)
        ∧ (∀ p ∈ (qualityCopy r q).outputs, ∃ p0 ∈ r.outputs,
            p.1 = MakeItem p0.1.name q p0.1.is_fluid ∧ p.2 = p0.2) := by
  refine ⟨?_, ?_, ?_⟩
  · simp [generate_quality_recipes, h]
  · simp only [no_quality_recipe, Bool.or_eq_false_iff] at h
    obtain ⟨⟨ho, hi⟩, hb⟩ := h
    rw [List.all_eq_false] at ho hi
    refine ⟨?_, ?_, hb⟩
    · rcases hi with ⟨p, hp, hfl⟩
      exact ⟨p, hp, by simpa using hfl⟩
    · rcases ho with ⟨p, hp, hfl⟩
      exact ⟨p, hp, by simpa using hfl⟩
  · intro q
    refine ⟨rfl, rfl, rfl, rfl, rfl, rfl, rfl, rfl, rfl, ?_, ?_⟩
    · intro p hp
      have hp2 : p ∈ List.foldl
          (fun m p0 => upsertG m (MakeItem p0.1.name q p0.1.is_fluid) p0.2) [] r.inputs := hp
      have horigin := mem_foldl_step
        (fun m p0 => upsertG m (MakeItem p0.1.name q p0.1.is_fluid) p0.2)
        (fun p0 p => p.1 = MakeItem p0.1.name q p0.1.is_fluid ∧ p.2 = p0.2)
        (fun m x p hm => by
          rcases mem_upsertG m _ _ p hm with h2 | h2
          · exact Or.inr (by rw [h2]; exact ⟨rfl, rfl⟩)
          · exact Or.inl h2)
        r.inputs [] p hp2
      rcases horigin with h2 | h2
      · cases h2
      · exact h2
    · intro p hp
      have hp2 : p ∈ List.foldl
          (fun m p0 => upsertG m (MakeItem p0.1.name q p0.1.is_fluid) p0.2) [] r.outputs := hp
      have horigin := mem_foldl_step
        (fun m p0 => upsertG m (MakeItem p0.1.name q p0.1.is_fluid) p0.2)
        (fun p0 p => p.1 = MakeItem p0.1.name q p0.1.is_fluid ∧ p.2 = p0.2)
        (fun m x p hm => by
          rcases mem_upsertG m _ _ p hm with h2 | h2
          · exact Or.inr (by rw [h2]; exact ⟨rfl, rfl⟩)
          · exact Or.inl h2)
        r.outputs [] p hp2
      rcases horigin with h2 | h2
      · cases h2
      · exact h2

/-- Witness for C8_quality_expansion: an eligible fixture recipe expands to
its 5 quality copies. -/
theorem C8_quality_expansion_witness :
    generate_quality_recipes [recipeFix "r" [(nfItem "a" 1, 1)] [(nfItem "b" 1, 1)] [] 1]
      = qualityRange.map (qualityCopy
          (recipeFix "r" [(nfItem "a" 1, 1)] [(nfItem "b" 1, 1)] [] 1)) :=
  (C8_quality_expansion (recipeFix "r" [(nfItem "a" 1, 1)] [(nfItem "b" 1, 1)] [] 1)
    (by decide)).1

/-- Claim C8 counterexample: for an eligible recipe with a no-productivity
output c at quality 1, the quality-2 copy keeps that item at quality 1: the
outputs_no_productivity map is not rewritten, contradicting the claim's
parenthetical. -/
theorem C8_counterexample :
    ((generate_quality_recipes [recipeFix "r" [(nfItem "a" 1, 1)] [(nfItem "b" 1, 1)]
        [(nfItem "c" 1, 1)] 1])[1]?).map (fun rr => rr.outputs_no_productivity)
      = some [(⟨"c".data, 1, false⟩, 1)]
    ∧ (⟨"c".data, 1, false⟩ : Item).quality ≠ 2 := by
  constructor
  · decide
  · decide

/-! ### Lemmas about catalyst netting and the output-map keys -/

theorem contains_eraseG_imp {κ β : Type} [DecidableEq κ] {m : List (κ × β)} {c k : κ}
    (h : containsG (eraseG m c) k = true) : containsG m k = true := by
  obtain ⟨v, hv⟩ := getG?_isSome_of_contains h
  have hm := mem_eraseG m c (k, v) (getG?_mem hv)
  exact containsG_of_mem hm

theorem eraseG_sublist {κ β : Type} [DecidableEq κ] (m : List (κ × β)) (k : κ) :
    (eraseG m k).Sublist m := by
  induction m with
  | nil => simp [eraseG]
  | cons p rest ih =>
    by_cases hp : p.1 = k
    · simp [eraseG, hp]
    · simp only [eraseG, if_neg hp]
      exact ih.cons₂ p

theorem keysG_nodup_eraseG {κ β : Type} [DecidableEq κ] (m : List (κ × β)) (k : κ)
    (hnd : (keysG m).Nodup) : (keysG (eraseG m k)).Nodup :=
  ((eraseG_sublist m k).map Prod.fst).nodup hnd

theorem mem_keysG_contains {κ β : Type} [DecidableEq κ] {m : List (κ × β)} {k : κ}
    (h : k ∈ keysG m) : containsG m k = true := by
  rcases List.mem_map.mp h with ⟨p, hp, hpk⟩
  exact hpk ▸ containsG_of_mem hp

theorem contains_mem_keysG {κ β : Type} [DecidableEq κ] {m : List (κ × β)} {k : κ}
    (h : containsG m k = true) : k ∈ keysG m := by
  obtain ⟨v, hv⟩ := getG?_isSome_of_contains h
  exact List.mem_map_of_mem Prod.fst (getG?_mem hv)

theorem nodup_keys_foldl {κ β α : Type} (step : List (κ × β) → α → List (κ × β))
    (h : ∀ m x, (keysG m).Nodup → (keysG (step m x)).Nodup) :
    ∀ (l : List α) (init : List (κ × β)), (keysG init).Nodup →
      (keysG (List.foldl step init l)).Nodup := by
  intro l
  induction l with
  | nil => intro init hi; exact hi
  | cons x rest ih => intro init hi; exact ih (step init x) (h init x hi)

theorem netStep_cases (st : QList × QList) (c : Item) :
    (netStep st c = (upsertG st.1 c (getDG st.1 c 0 - getDG st.2 c 0), eraseG st.2 c))
    ∨ (netStep st c = (eraseG st.1 c, upsertG st.2 c (getDG st.2 c 0 - getDG st.1 c 0)))
    ∨ (netStep st c = (eraseG st.1 c, eraseG st.2 c)) := by
  unfold netStep
  split_ifs with h1 h2
  · exact Or.inl rfl
  · exact Or.inr (Or.inl rfl)
  · exact Or.inr (Or.inr rfl)

theorem netStep_fst_contains (st : QList × QList) (c : Item) (k : Item)
    (h : containsG (netStep st c).1 k = true) : containsG st.1 k = true ∨ k = c := by
  rcases netStep_cases st c with he | he | he <;> rw [he] at h
  · rcases containsG_upsertG_cases st.1 c k _ h with h2 | h2
    · exact Or.inr h2
    · exact Or.inl h2
  · exact Or.inl (contains_eraseG_imp h)
  · exact Or.inl (contains_eraseG_imp h)

theorem netStep_snd_contains (st : QList × QList) (c : Item) (k : Item)
    (h : containsG (netStep st c).2 k = true) : containsG st.2 k = true ∨ k = c := by
  rcases netStep_cases st c with he | he | he <;> rw [he] at h
  · exact Or.inl (contains_eraseG_imp h)
  · rcases containsG_upsertG_cases st.2 c k _ h with h2 | h2
    · exact Or.inr h2
    · exact Or.inl h2
  · exact Or.inl (contains_eraseG_imp h)

theorem netStep_fst_other (st : QList × QList) (c : Item) (k : Item) (hk : k ≠ c) :
    containsG (netStep st c).1 k = containsG st.1 k := by
  rcases netStep_cases st c with he | he | he <;> rw [he]
  · show containsG (upsertG st.1 c _) k = _
    rw [containsG, getG?_upsert_ne st.1 c k _ hk]
    rfl
  · exact containsG_eraseG_ne st.1 c k hk
  · exact containsG_eraseG_ne st.1 c k hk

theorem netStep_snd_other (st : QList × QList) (c : Item) (k : Item) (hk : k ≠ c) :
    containsG (netStep st c).2 k = containsG st.2 k := by
  rcases netStep_cases st c with he | he | he <;> rw [he]
  · exact containsG_eraseG_ne st.2 c k hk
  · show containsG (upsertG st.2 c _) k = _
    rw [containsG, getG?_upsert_ne st.2 c k _ hk]
    rfl
  · exact containsG_eraseG_ne st.2 c k hk

theorem netStep_nodup (st : QList × QList) (c : Item)
    (h1 : (keysG st.1).Nodup) (h2 : (keysG st.2).Nodup) :
    (keysG (netStep st c).1).Nodup ∧ (keysG (netStep st c).2).Nodup := by
  rcases netStep_cases st c with he | he | he <;> rw [he]
  · exact ⟨keysG_nodup_upsertG st.1 c _ h1, keysG_nodup_eraseG st.2 c h2⟩
  · exact ⟨keysG_nodup_eraseG st.1 c h1, keysG_nodup_upsertG st.2 c _ h2⟩
  · exact ⟨keysG_nodup_eraseG st.1 c h1, keysG_nodup_eraseG st.2 c h2⟩

theorem netStep_post (st : QList × QList) (c : Item)
    (h1 : (keysG st.1).Nodup) (h2 : (keysG st.2).Nodup) :
    ¬(containsG (netStep st c).1 c = true ∧ containsG (netStep st c).2 c = true) := by
  rcases netStep_cases st c with he | he | he <;> rw [he]
  · rintro ⟨-, hb⟩
    rw [show (upsertG st.1 c (getDG st.1 c 0 - getDG st.2 c 0), eraseG st.2 c).2
      = eraseG st.2 c from rfl, containsG_eraseG_self st.2 c h2] at hb
    cases hb
  · rintro ⟨ha, -⟩
    rw [show (eraseG st.1 c, upsertG st.2 c (getDG st.2 c 0 - getDG st.1 c 0)).1
      = eraseG st.1 c from rfl, containsG_eraseG_self st.1 c h1] at ha
    cases ha
  · rintro ⟨ha, -⟩
    rw [show ((eraseG st.1 c, eraseG st.2 c) : QList × QList).1
      = eraseG st.1 c from rfl, containsG_eraseG_self st.1 c h1] at ha
    cases ha

theorem net_fold_fst (cats : List Item) : ∀ (st : QList × QList) (k : Item),
    containsG (cats.foldl netStep st).1 k = true → containsG st.1 k = true ∨ k ∈ cats := by
  induction cats with
  | nil => intro st k h; exact Or.inl h
  | cons c rest ih =>
    intro st k h
    rcases ih (netStep st c) k h with h2 | h2
    · rcases netStep_fst_contains st c k h2 with h3 | h3
      · exact Or.inl h3
      · exact Or.inr (h3 ▸ List.mem_cons_self _ _)
    · exact Or.inr (List.mem_cons_of_mem _ h2)

theorem net_fold_snd (cats : List Item) : ∀ (st : QList × QList) (k : Item),
    containsG (cats.foldl netStep st).2 k = true → containsG st.2 k = true ∨ k ∈ cats := by
  induction cats with
  | nil => intro st k h; exact Or.inl h
  | cons c rest ih =>
    intro st k h
    rcases ih (netStep st c) k h with h2 | h2
    · rcases netStep_snd_contains st c k h2 with h3 | h3
      · exact Or.inl h3
      · exact Or.inr (h3 ▸ List.mem_cons_self _ _)
    · exact Or.inr (List.mem_cons_of_mem _ h2)

theorem net_fold_other (cats : List Item) : ∀ (st : QList × QList) (k : Item), k ∉ cats →
    containsG (cats.foldl netStep st).1 k = containsG st.1 k
      ∧ containsG (cats.foldl netStep st).2 k = containsG st.2 k := by
  induction cats with
  | nil => intro st k _; exact ⟨rfl, rfl⟩
  | cons c rest ih =>
    intro st k hk
    have hkc : k ≠ c := fun he => hk (he ▸ List.mem_cons_self _ _)
    have hkr : k ∉ rest := fun he => hk (List.mem_cons_of_mem _ he)
    obtain ⟨ha, hb⟩ := ih (netStep st c) k hkr
    exact ⟨ha.trans (netStep_fst_other st c k hkc),
      hb.trans (netStep_snd_other st c k hkc)⟩

theorem net_fold_nodup (cats : List Item) : ∀ (st : QList × QList),
    (keysG st.1).Nodup → (keysG st.2).Nodup →
      (keysG (cats.foldl netStep st).1).Nodup ∧ (keysG (cats.foldl netStep st).2).Nodup := by
  induction cats with
  | nil => intro st h1 h2; exact ⟨h1, h2⟩
  | cons c rest ih =>
    intro st h1 h2
    obtain ⟨h1c, h2c⟩ := netStep_nodup st c h1 h2
    exact ih (netStep st c) h1c h2c

theorem net_fold_post (cats : List Item) : ∀ (st : QList × QList),
    cats.Nodup → (keysG st.1).Nodup → (keysG st.2).Nodup →
      ∀ c ∈ cats, ¬(containsG (cats.foldl netStep st).1 c = true
        ∧ containsG (cats.foldl netStep st).2 c = true) := by
  induction cats with
  | nil => intro st _ _ _ c hc; cases hc
  | cons c0 rest ih =>
    intro st hnd h1 h2 c hc
    obtain ⟨hout, hndr⟩ := List.nodup_cons.mp hnd
    obtain ⟨h1c, h2c⟩ := netStep_nodup st c0 h1 h2
    rcases List.mem_cons.mp hc with he | hmem
    · subst he
      obtain ⟨ha, hb⟩ := net_fold_other rest (netStep st c) c hout
      rintro ⟨hx, hy⟩
      rw [List.foldl_cons, ha] at hx
      rw [List.foldl_cons, hb] at hy
      exact netStep_post st c h1 h2 ⟨hx, hy⟩
    · exact ih (netStep st c0) hndr h1c h2c c hmem

theorem baseOutputs_contains (rq : Int) (q : ℚ) (zq : QList) (k : Item)
    (h : containsG (baseOutputs rq q zq) k = true) :
    ∃ p ∈ zq, (p.1.is_fluid = false ∧ k = (⟨p.1.name, rq, false⟩ : Item))
      ∨ (p.1.is_fluid = true ∧ k = (⟨p.1.name, 1, true⟩ : Item)) := by
  unfold baseOutputs at h
  have h2 := contains_foldl_step
    (fun m p => if p.1.is_fluid = true then upsertG m (Fluid p.1.name) p.2 else m)
    (fun p k => p.1.is_fluid = true ∧ k = Fluid p.1.name)
    (fun m x k hk => by
      by_cases hf : x.1.is_fluid = true
      · simp only [hf, if_pos rfl] at hk
        rcases containsG_upsertG_cases m _ k _ hk with h3 | h3
        · exact Or.inr ⟨hf, h3⟩
        · exact Or.inl h3
      · simp only [if_neg hf] at hk
        exact Or.inl hk)
    zq _ k h
  rcases h2 with h2 | h2
  · have h3 := contains_foldl_step
      (fun m p => if p.1.is_fluid = true then m
        else upsertG m (⟨p.1.name, rq, false⟩ : Item) (p.2 * (1 - q)))
      (fun p k => p.1.is_fluid = false ∧ k = (⟨p.1.name, rq, false⟩ : Item))
      (fun m x k hk => by
        by_cases hf : x.1.is_fluid = true
        · simp only [if_pos hf] at hk
          exact Or.inl hk
        · simp only [if_neg hf] at hk
          rcases containsG_upsertG_cases m _ k _ hk with h4 | h4
          · exact Or.inr ⟨by simpa using hf, h4⟩
          · exact Or.inl h4)
      zq [] k h2
    rcases h3 with h3 | h3
    · simp [containsG, getG?_nil] at h3
    · rcases h3 with ⟨p, hp, hP⟩
      exact ⟨p, hp, Or.inl hP⟩
  · rcases h2 with ⟨p, hp, hP⟩
    exact ⟨p, hp, Or.inr ⟨hP.1, hP.2⟩⟩

theorem tierFold_contains (zq : QList) (t : Int) (cm : ℚ) (m : QList) (k : Item)
    (h : containsG (tierFold zq t cm m) k = true) :
    containsG m k = true
      ∨ ∃ p ∈ zq, p.1.is_fluid = false ∧ k = (⟨p.1.name, t, false⟩ : Item) := by
  unfold tierFold at h
  have h2 := contains_foldl_step
    (fun m p => if p.1.is_fluid = true then m
      else upsertG m (⟨p.1.name, t, false⟩ : Item) (p.2 * cm))
    (fun p k => p.1.is_fluid = false ∧ k = (⟨p.1.name, t, false⟩ : Item))
    (fun m x k hk => by
      by_cases hf : x.1.is_fluid = true
      · simp only [if_pos hf] at hk
        exact Or.inl hk
      · simp only [if_neg hf] at hk
        rcases containsG_upsertG_cases m _ k _ hk with h4 | h4
        · exact Or.inr ⟨by simpa using hf, h4⟩
        · exact Or.inl h4)
    zq m k h
  exact h2

theorem tierLoop_contains (zq : QList) : ∀ (fuel : Nat) (lo cm : ℚ) (t : Int) (m : QList)
    (k : Item), containsG (tierLoop zq fuel lo cm t m) k = true →
    containsG m k = true
      ∨ ∃ p ∈ zq, p.1.is_fluid = false
          ∧ ∃ t2, t ≤ t2 ∧ t2 ≤ 5 ∧ k = (⟨p.1.name, t2, false⟩ : Item) := by
  intro fuel
  induction fuel with
  | zero => intro lo cm t m k h; exact Or.inl h
  | succ fuel ih =>
    intro lo cm t m k h
    unfold tierLoop at h
    by_cases ht : t ≤ MAX_QUALITY
    · rw [if_pos ht] at h
      rcases ih _ _ (t + 1) _ k h with h2 | h2
      · rcases tierFold_contains zq t _ m k h2 with h3 | h3
        · exact Or.inl h3
        · rcases h3 with ⟨p, hp, hf, hk⟩
          exact Or.inr ⟨p, hp, hf, t, le_refl t, by simpa [MAX_QUALITY] using ht, hk⟩
      · rcases h2 with ⟨p, hp, hf, t2, ht2, ht5, hk⟩
        exact Or.inr ⟨p, hp, hf, t2, by omega, ht5, hk⟩
    · rw [if_neg ht] at h
      exact Or.inl h

theorem buildOutputs_contains (rq : Int) (q : ℚ) (zq : QList) (k : Item)
    (h : containsG (buildOutputs rq q zq) k = true) :
    (∃ p ∈ zq, (p.1.is_fluid = false ∧ k = (⟨p.1.name, rq, false⟩ : Item))
      ∨ (p.1.is_fluid = true ∧ k = (⟨p.1.name, 1, true⟩ : Item)))
    ∨ ∃ p ∈ zq, p.1.is_fluid = false
        ∧ ∃ t2, rq + 1 ≤ t2 ∧ t2 ≤ 5 ∧ k = (⟨p.1.name, t2, false⟩ : Item) := by
  unfold buildOutputs at h
  by_cases hq : q ≠ 0
  · rw [if_pos hq] at h
    rcases tierLoop_contains zq _ _ _ _ _ k h with h2 | h2
    · exact Or.inl (baseOutputs_contains rq q zq k h2)
    · exact Or.inr h2
  · rw [if_neg hq] at h
    exact Or.inl (baseOutputs_contains rq q zq k h)

theorem inputRates_nodup (r : Recipe) (rate : ℚ) : (keysG (inputRates r rate)).Nodup := by
  unfold inputRates
  exact nodup_keys_foldl _ (fun m (x : Item × ℚ) => keysG_nodup_upsertG m x.1 _) r.inputs []
    List.nodup_nil

theorem inputRates_contains (r : Recipe) (rate : ℚ) (k : Item)
    (h : containsG (inputRates r rate) k = true) : containsG r.inputs k = true := by
  have h2 := contains_foldl_step (fun m (x : Item × ℚ) => upsertG m x.1 (x.2 * rate))
    (fun x k => k = x.1)
    (fun m x k hk => by
      rcases containsG_upsertG_cases m x.1 k _ hk with h3 | h3
      · exact Or.inr h3
      · exact Or.inl h3)
    r.inputs [] k h
  rcases h2 with h2 | h2
  · simp [containsG, getG?_nil] at h2
  · rcases h2 with ⟨x, hx, hk⟩
    exact hk ▸ containsG_of_mem hx

theorem zeroQualityRates_nodup (r : Recipe) (rate pm : ℚ) :
    (keysG (zeroQualityRates r rate pm)).Nodup := by
  unfold zeroQualityRates
  refine nodup_keys_foldl _ (fun m (x : Item × ℚ) => keysG_nodup_upsertG m x.1 _) _ _ ?_
  exact nodup_keys_foldl _ (fun m (x : Item × ℚ) => keysG_nodup_upsertG m x.1 _) r.outputs []
    List.nodup_nil

theorem zeroQualityRates_contains (r : Recipe) (rate pm : ℚ) (k : Item)
    (h : containsG (zeroQualityRates r rate pm) k = true) :
    containsG r.outputs k = true ∨ ∃ x ∈ r.outputs_no_productivity, k = x.1 := by
  unfold zeroQualityRates at h
  have h2 := contains_foldl_step (fun m (x : Item × ℚ) => addToG m x.1 (x.2 * rate))
    (fun x k => k = x.1)
    (fun m x k hk => by
      rcases containsG_upsertG_cases m x.1 k _ hk with h3 | h3
      · exact Or.inr h3
      · exact Or.inl h3)
    r.outputs_no_productivity _ k h
  rcases h2 with h2 | h2
  · have h3 := contains_foldl_step (fun m (x : Item × ℚ) => upsertG m x.1 (x.2 * rate * pm))
      (fun x k => k = x.1)
      (fun m x k hk => by
        rcases containsG_upsertG_cases m x.1 k _ hk with h4 | h4
        · exact Or.inr h4
        · exact Or.inl h4)
      r.outputs [] k h2
    rcases h3 with h3 | h3
    · simp [containsG, getG?_nil] at h3
    · rcases h3 with ⟨x, hx, hk⟩
      exact Or.inl (hk ▸ containsG_of_mem hx)
  · exact Or.inr h2

/-! ### Claim C2: disjointness of inputs_per_sec and outputs_per_sec -/

/-- Claim C2 (corrected): catalyst netting compares full Item identity
against the keys of recipe.outputs only, while every non-fluid output is
re-keyed at recipe.quality (and fluids at quality 1) and quality
redistribution adds higher tiers; so an input can re-appear among the
output keys, e.g. through an outputs_no_productivity item that is also an
input (C2_counterexample). The disjointness does hold whenever the output
maps are well-formed for the projection: fluid output keys carry quality 1,
non-fluid output keys carry the recipe quality, items that are both inputs
and no-productivity outputs are also productive outputs, and no non-fluid
input shares a name with an output at quality above the recipe quality. -/
theorem C2_catalyst_disjoint (tn : Str) (r : Recipe) (rb : List (Str × Bonus))
    (machine : Machine) (s : MachineSettings) (mb : Bonus)
    (hfl : ∀ x ∈ r.outputs ++ r.outputs_no_productivity, x.1.is_fluid = true →
      x.1.quality = 1)
    (hq : ∀ x ∈ r.outputs ++ r.outputs_no_productivity, x.1.is_fluid = false →
      x.1.quality = r.quality)
    (hnp : ∀ x ∈ r.outputs_no_productivity, containsG r.inputs x.1 = true →
      containsG r.outputs x.1 = true)
    (hin : ∀ xin ∈ r.inputs, ∀ xo ∈ r.outputs ++ r.outputs_no_productivity,
      xin.1.is_fluid = false → xo.1.is_fluid = false → xin.1.name = xo.1.name →
      xin.1.quality ≤ r.quality) :
    ∀ k, ¬(containsG (mkTransformation tn r rb machine s mb).inputs_per_sec k = true
      ∧ containsG (mkTransformation tn r rb machine s mb).outputs_per_sec k = true) := by
  intro k
  rintro ⟨hkin, hkout⟩
  obtain ⟨rate, pm, hins, hzq⟩ : ∃ rate pm,
      insOf r rb machine s mb
        = (netCatalysts r (inputRates r rate) (zeroQualityRates r rate pm)).1
      ∧ zqOf r rb machine s mb
        = (netCatalysts r (inputRates r rate) (zeroQualityRates r rate pm)).2 :=
    ⟨_, _, rfl, rfl⟩
  have hkin2 : containsG (netCatalysts r (inputRates r rate)
      (zeroQualityRates r rate pm)).1 k = true := by
    have : containsG (insOf r rb machine s mb) k = true := hkin
    rwa [hins] at this
  have hkout2 : containsG (buildOutputs r.quality (qEffOf r rb machine s mb)
      (netCatalysts r (inputRates r rate) (zeroQualityRates r rate pm)).2) k = true := by
    have : containsG (buildOutputs r.quality (qEffOf r rb machine s mb)
      (zqOf r rb machine s mb)) k = true := hkout
    rwa [hzq] at this
  have hI0nd := inputRates_nodup r rate
  have hZ0nd := zeroQualityRates_nodup r rate pm
  have hcnd : ((keysG (inputRates r rate)).filter
      (fun i => containsG r.outputs i)).Nodup := hI0nd.filter _
  unfold netCatalysts at hkin2 hkout2
  have hI0k : containsG (inputRates r rate) k = true := by
    rcases net_fold_fst _ _ k hkin2 with h2 | h2
    · exact h2
    · exact mem_keysG_contains (List.mem_of_mem_filter h2)
  have hInK : containsG r.inputs k = true := inputRates_contains r rate k hI0k
  -- key provenance for zq-side keys: any key of the netted zq map comes
  -- from recipe.outputs or recipe.outputs_no_productivity
  have zq_origin : ∀ kk : Item, containsG ((((keysG (inputRates r rate)).filter
        (fun i => containsG r.outputs i)).foldl netStep
        (inputRates r rate, zeroQualityRates r rate pm)).2) kk = true →
      ∃ x ∈ r.outputs ++ r.outputs_no_productivity, kk = x.1 := by
    intro kk hkk
    rcases net_fold_snd _ _ kk hkk with h2 | h2
    · rcases zeroQualityRates_contains r rate pm kk h2 with h3 | h3
      · obtain ⟨v, hv⟩ := getG?_isSome_of_contains h3
        exact ⟨(kk, v), List.mem_append_left _ (getG?_mem hv), rfl⟩
      · rcases h3 with ⟨x, hx, hk⟩
        exact ⟨x, List.mem_append_right _ hx, hk⟩
    · have h3 : containsG r.outputs kk = true := by
        have := List.of_mem_filter h2
        simpa using this
      obtain ⟨v, hv⟩ := getG?_isSome_of_contains h3
      exact ⟨(kk, v), List.mem_append_left _ (getG?_mem hv), rfl⟩
  -- the shared contradiction once k is known to be a key of the netted zq
  have shared : containsG ((((keysG (inputRates r rate)).filter
        (fun i => containsG r.outputs i)).foldl netStep
        (inputRates r rate, zeroQualityRates r rate pm)).2) k = true → False := by
    intro hzqk
    by_cases hro : containsG r.outputs k = true
    · have hkc : k ∈ (keysG (inputRates r rate)).filter
          (fun i => containsG r.outputs i) := by
        refine List.mem_filter.mpr ⟨contains_mem_keysG hI0k, by simpa using hro⟩
      exact net_fold_post _ _ hcnd hI0nd hZ0nd k hkc ⟨hkin2, hzqk⟩
    · rcases net_fold_snd _ _ k hzqk with h2 | h2
      · rcases zeroQualityRates_contains r rate pm k h2 with h3 | h3
        · exact hro h3
        · rcases h3 with ⟨x, hx, hk⟩
          exact hro (hk ▸ hnp x hx (hk ▸ hInK))
      · have h3 : containsG r.outputs k = true := by
          have := List.of_mem_filter h2
          simpa using this
        exact hro h3
  rcases buildOutputs_contains _ _ _ k hkout2 with hbase | htier
  · rcases hbase with ⟨p, hp, hcase⟩
    obtain ⟨⟨nm, qq, fl⟩, pv⟩ := p
    have hpk : containsG ((((keysG (inputRates r rate)).filter
        (fun i => containsG r.outputs i)).foldl netStep
        (inputRates r rate, zeroQualityRates r rate pm)).2) ⟨nm, qq, fl⟩ = true :=
      containsG_of_mem hp
    obtain ⟨x, hx, hpx⟩ := zq_origin ⟨nm, qq, fl⟩ hpk
    have hkp : k = (⟨nm, qq, fl⟩ : Item) := by
      rcases hcase with ⟨hnf, hk⟩ | ⟨hf, hk⟩
      · have hnf2 : fl = false := hnf
        have hk2 : k = (⟨nm, r.quality, false⟩ : Item) := hk
        have hq2 := hq x hx (by rw [← hpx]; exact hnf)
        rw [← hpx] at hq2
        have hq3 : qq = r.quality := hq2
        rw [hk2, hq3, hnf2]
      · have hf2 : fl = true := hf
        have hk2 : k = (⟨nm, 1, true⟩ : Item) := hk
        have hq2 := hfl x hx (by rw [← hpx]; exact hf)
        rw [← hpx] at hq2
        have hq3 : qq = 1 := hq2
        rw [hk2, hq3, hf2]
    exact shared (hkp ▸ hpk)
  · rcases htier with ⟨p, hp, hnf, t2, ht2a, ht2b, hk⟩
    have hpk : containsG ((((keysG (inputRates r rate)).filter
        (fun i => containsG r.outputs i)).foldl netStep
        (inputRates r rate, zeroQualityRates r rate pm)).2) p.1 = true :=
      containsG_of_mem hp
    obtain ⟨x, hx, hpx⟩ := zq_origin p.1 hpk
    obtain ⟨v, hv⟩ := getG?_isSome_of_contains hInK
    have hxin := getG?_mem hv
    have hle := hin (k, v) hxin x hx (by rw [hk]) (by rw [← hpx]; exact hnf)
      (by rw [hk, ← hpx])
    rw [hk] at hle
    simp only at hle
    omega

/-- Witness for C2_catalyst_disjoint: a catalyst recipe consuming 2 a and
producing 1 a plus 1 b nets cleanly, and a is not on both sides. -/
theorem C2_catalyst_disjoint_witness :
    ¬(containsG (mkTransformation "t".data
        (recipeFix "r" [(nfItem "a" 1, 2)] [(nfItem "a" 1, 1), (nfItem "b" 1, 1)] [] 1)
        [] machineBasic settingsPlain ZERO_BONUS).inputs_per_sec (nfItem "a" 1) = true
      ∧ containsG (mkTransformation "t".data
        (recipeFix "r" [(nfItem "a" 1, 2)] [(nfItem "a" 1, 1), (nfItem "b" 1, 1)] [] 1)
        [] machineBasic settingsPlain ZERO_BONUS).outputs_per_sec (nfItem "a" 1) = true) :=
  C2_catalyst_disjoint "t".data
    (recipeFix "r" [(nfItem "a" 1, 2)] [(nfItem "a" 1, 1), (nfItem "b" 1, 1)] [] 1)
    [] machineBasic settingsPlain ZERO_BONUS
    (by decide) (by decide) (by decide) (by decide) (nfItem "a" 1)

/-- Claim C2 counterexample: an item that is both an input and a
no-productivity output is not netted (netting looks only at recipe.outputs
keys), so after construction the item a appears as a key of both
inputs_per_sec and outputs_per_sec. -/
theorem C2_counterexample :
    ((mkController (configFix
        [recipeFix "r" [(nfItem "a" 1, 1)] [] [(nfItem "a" 1, 1)] 1]
        machineBasic)).transformations.head?).map
      (fun t => (containsG t.inputs_per_sec (nfItem "a" 1),
        containsG t.outputs_per_sec (nfItem "a" 1))) = some (true, true) := by
  norm_num +decide [mkController, configFix, recipeFix, nfItem, machineBasic,
    settingsPlain, mkTransformation, insOf, zqOf, qEffOf, extraEffects, rateOf, inputRates,
    zeroQualityRates, netCatalysts, netStep, buildOutputs, baseOutputs, tierLoop, tierFold,
    MachineSettings.effect_total, Bonus.add, Bonus.smul, ZERO_BONUS, getDG, getG?, upsertG,
    keysG, containsG, eraseG, addToG, Clamp, ClampLo, buildRecipeMap, containsSub,
    startsWithS, usesProdModules, usesQualityModules, Fluid, MakeItem,
    List.filter_cons, List.filter_nil, MAX_QUALITY]

/-! ### Claim C3: quality redistribution conserves output mass -/

theorem tierFold_getG?_ne (zq : QList) : ∀ (t : Int) (cm : ℚ) (m : QList) (k : Item),
    (k.quality ≠ t ∨ k.is_fluid = true) → getG? (tierFold zq t cm m) k = getG? m k := by
  induction zq with
  | nil => intro t cm m k _; rfl
  | cons x rest ih =>
    intro t cm m k hk
    show getG? (tierFold rest t cm
      (if x.1.is_fluid = true then m
        else upsertG m (⟨x.1.name, t, false⟩ : Item) (x.2 * cm))) k = getG? m k
    rw [ih t cm _ k hk]
    by_cases hf : x.1.is_fluid = true
    · rw [if_pos hf]
    · rw [if_neg hf]
      refine getG?_upsert_ne m _ k _ ?_
      intro he
      rcases hk with hk | hk
      · exact hk (by rw [he])
      · rw [he] at hk
        cases hk

theorem tierFold_untouched_name (zq : QList) : ∀ (t : Int) (cm : ℚ) (m : QList)
    (nm : Str) (t2 : Int),
    (∀ x ∈ zq, x.1.is_fluid = true ∨ x.1.name ≠ nm) →
    getG? (tierFold zq t cm m) (⟨nm, t2, false⟩ : Item) = getG? m (⟨nm, t2, false⟩ : Item) := by
  induction zq with
  | nil => intro t cm m nm t2 _; rfl
  | cons x rest ih =>
    intro t cm m nm t2 hall
    show getG? (tierFold rest t cm
      (if x.1.is_fluid = true then m
        else upsertG m (⟨x.1.name, t, false⟩ : Item) (x.2 * cm))) _ = _
    rw [ih t cm _ nm t2 (fun y hy => hall y (List.mem_cons_of_mem _ hy))]
    by_cases hf : x.1.is_fluid = true
    · rw [if_pos hf]
    · rw [if_neg hf]
      refine getG?_upsert_ne m _ _ _ ?_
      intro he
      rcases hall x (List.mem_cons_self _ _) with h2 | h2
      · exact hf h2
      · exact h2 (by
          have : (⟨nm, t2, false⟩ : Item).name = (⟨x.1.name, t, false⟩ : Item).name := by
            rw [he]
          simpa using this.symm)

theorem tierFold_getG?_self (zq : QList) : ∀ (t : Int) (cm : ℚ) (m : QList) (p : Item × ℚ),
    nfNamesDistinct zq → p ∈ zq → p.1.is_fluid = false →
    getG? (tierFold zq t cm m) (⟨p.1.name, t, false⟩ : Item) = some (p.2 * cm) := by
  induction zq with
  | nil => intro t cm m p _ hp _; cases hp
  | cons x rest ih =>
    intro t cm m p hd hp hnf
    obtain ⟨hx, hrest⟩ := List.pairwise_cons.mp hd
    show getG? (tierFold rest t cm
      (if x.1.is_fluid = true then m
        else upsertG m (⟨x.1.name, t, false⟩ : Item) (x.2 * cm))) _ = _
    rcases List.mem_cons.mp hp with he | hmem
    · subst he
      rw [if_neg (by rw [hnf]; exact Bool.false_ne_true)]
      rw [tierFold_untouched_name rest t cm _ p.1.name t
        (fun y hy => by
          by_cases hyf : y.1.is_fluid = true
          · exact Or.inl hyf
          · exact Or.inr (fun hn => (hx y hy hnf (by simpa using hyf)) hn.symm))]
      exact getG?_upsert_self m _ _
    · exact ih t cm _ p hrest hmem hnf

theorem fluidFold_getG?_nf (zq : QList) : ∀ (m : QList) (k : Item), k.is_fluid = false →
    getG? (zq.foldl (fun m p => if p.1.is_fluid = true
      then upsertG m (Fluid p.1.name) p.2 else m) m) k = getG? m k := by
  induction zq with
  | nil => intro m k _; rfl
  | cons x rest ih =>
    intro m k hk
    rw [List.foldl_cons, ih _ k hk]
    by_cases hf : x.1.is_fluid = true
    · rw [if_pos hf]
      refine getG?_upsert_ne m _ k _ ?_
      intro he
      have : k.is_fluid = (Fluid x.1.name).is_fluid := by rw [he]
      rw [hk] at this
      cases this
    · rw [if_neg hf]

theorem baseOutputs_getG?_self (rq : Int) (q : ℚ) (zq : QList) (p : Item × ℚ)
    (hd : nfNamesDistinct zq) (hp : p ∈ zq) (hnf : p.1.is_fluid = false) :
    getG? (baseOutputs rq q zq) (⟨p.1.name, rq, false⟩ : Item) = some (p.2 * (1 - q)) := by
  show getG? (zq.foldl _ (tierFold zq rq (1 - q) [])) _ = _
  rw [fluidFold_getG?_nf zq _ _ rfl]
  exact tierFold_getG?_self zq rq (1 - q) [] p hd hp hnf

theorem baseOutputs_getG?_ne (rq : Int) (q : ℚ) (zq : QList) (nm : Str) (t2 : Int)
    (ht : t2 ≠ rq) : getG? (baseOutputs rq q zq) (⟨nm, t2, false⟩ : Item) = none := by
  show getG? (zq.foldl _ (tierFold zq rq (1 - q) [])) _ = _
  rw [fluidFold_getG?_nf zq _ _ rfl]
  rw [tierFold_getG?_ne zq rq (1 - q) [] _ (Or.inl (by simpa using ht))]
  rfl

theorem tierLoop_getG?_lt (zq : QList) : ∀ (fuel : Nat) (lo cm : ℚ) (t : Int) (m : QList)
    (k : Item), (k.quality < t ∨ k.is_fluid = true) →
    getG? (tierLoop zq fuel lo cm t m) k = getG? m k := by
  intro fuel
  induction fuel with
  | zero => intro lo cm t m k _; rfl
  | succ fuel ih =>
    intro lo cm t m k hk
    unfold tierLoop
    by_cases ht : t ≤ MAX_QUALITY
    · rw [if_pos ht]
      rw [ih _ _ (t + 1) _ k (by rcases hk with hk | hk; exacts [Or.inl (by omega), Or.inr hk])]
      exact tierFold_getG?_ne zq t _ m k
        (by rcases hk with hk | hk; exacts [Or.inl (by omega), Or.inr hk])
    · rw [if_neg ht]

theorem tierSumFuel_none (nm : Str) : ∀ (fuel : Nat) (m : QList) (t : Int),
    (∀ t2 : Int, t ≤ t2 → getG? m (⟨nm, t2, false⟩ : Item) = none) →
    tierSumFuel fuel m nm t = 0 := by
  intro fuel
  induction fuel with
  | zero => intro m t _; rfl
  | succ fuel ih =>
    intro m t hm
    show getDG m (⟨nm, t, false⟩ : Item) 0 + tierSumFuel fuel m nm (t + 1) = 0
    rw [ih m (t + 1) (fun t2 ht2 => hm t2 (by omega))]
    rw [getDG, hm t (le_refl t)]
    simp

theorem tierLoop_sum (zq : QList) (p : Item × ℚ) (hd : nfNamesDistinct zq) (hp : p ∈ zq)
    (hnf : p.1.is_fluid = false) : ∀ (fuel : Nat) (lo cm : ℚ) (t : Int) (m : QList),
    t + fuel = 6 → t ≤ 5 →
    (∀ t2 : Int, t ≤ t2 → getG? m (⟨p.1.name, t2, false⟩ : Item) = none) →
    tierSumFuel fuel (tierLoop zq fuel lo cm t m) p.1.name t = p.2 * lo := by
  intro fuel
  induction fuel with
  | zero => intro lo cm t m h6 h5 _; omega
  | succ fuel ih =>
    intro lo cm t m h6 h5 hm
    unfold tierLoop
    rw [if_pos (show t ≤ MAX_QUALITY by simpa [MAX_QUALITY] using h5)]
    rcases Nat.eq_zero_or_pos fuel with hf0 | hfpos
    · subst hf0
      have ht5 : t = 5 := by omega
      subst ht5
      rw [if_pos (show (5 : Int) = MAX_QUALITY by simp [MAX_QUALITY])]
      show getDG (tierLoop zq 0 _ _ _ _) (⟨p.1.name, 5, false⟩ : Item) 0 + 0 = p.2 * lo
      show getDG (tierFold zq 5 lo m) (⟨p.1.name, 5, false⟩ : Item) 0 + 0 = p.2 * lo
      rw [getDG, tierFold_getG?_self zq 5 lo m p hd hp hnf]
      simp
    · have ht5 : t ≠ 5 := by omega
      rw [if_neg (show ¬t = MAX_QUALITY by simpa [MAX_QUALITY] using ht5)]
      show getDG (tierLoop zq fuel (lo - cm) (cm * (1/10)) (t + 1) (tierFold zq t cm m))
          (⟨p.1.name, t, false⟩ : Item) 0
        + tierSumFuel fuel (tierLoop zq fuel (lo - cm) (cm * (1/10)) (t + 1)
            (tierFold zq t cm m)) p.1.name (t + 1) = p.2 * lo
      rw [getDG, tierLoop_getG?_lt zq fuel _ _ (t + 1) _ _
        (Or.inl (by show t < t + 1; omega))]
      rw [tierFold_getG?_self zq t cm m p hd hp hnf]
      rw [ih (lo - cm) (cm * (1/10)) (t + 1) (tierFold zq t cm m) (by omega) (by omega)
        (fun t2 ht2 => by
          rw [tierFold_getG?_ne zq t cm m _ (Or.inl (by simpa using (by omega : t2 ≠ t)))]
          exact hm t2 (by omega))]
      show p.2 * cm + p.2 * (lo - cm) = p.2 * lo
      ring

/-- Claim C3 (corrected): the geometric redistribution with the forced
terminal tier conserves each non-fluid output's mass across tiers
recipe.quality..5 whenever the recipe quality lies in 1..5, the terminal
tier exists for the redistribution (recipe.quality < 5, or no quality
effect), and the non-fluid netted outputs carry pairwise distinct names.
Two outputs sharing a name collapse in the re-keyed dict (last wins) and
break conservation, as C3_counterexample shows; a quality-5 recipe with a
positive quality effect loses the entire redistributed fraction. -/
theorem C3_quality_mass (tn : Str) (r : Recipe) (rb : List (Str × Bonus))
    (machine : Machine) (s : MachineSettings) (mb : Bonus)
    (h1 : 1 ≤ r.quality) (h2 : r.quality ≤ 5)
    (h3 : r.quality < 5 ∨ qEffOf r rb machine s mb = 0)
    (hd : nfNamesDistinct (zqOf r rb machine s mb)) :
    ∀ p ∈ zqOf r rb machine s mb, p.1.is_fluid = false →
      tierSum (mkTransformation tn r rb machine s mb).outputs_per_sec p.1.name r.quality
        = p.2 := by
  intro p hp hnf
  have houts : (mkTransformation tn r rb machine s mb).outputs_per_sec
      = buildOutputs r.quality (qEffOf r rb machine s mb) (zqOf r rb machine s mb) := rfl
  rw [houts]
  set q := qEffOf r rb machine s mb with hq
  set zq := zqOf r rb machine s mb with hzq
  have hfuel : (6 - r.quality).toNat = (5 - r.quality).toNat + 1 := by omega
  by_cases hq0 : q = 0
  · have hbo : buildOutputs r.quality q zq = baseOutputs r.quality q zq := by
      unfold buildOutputs
      rw [if_neg (by simpa using hq0)]
    rw [hbo]
    unfold tierSum
    rw [hfuel]
    show getDG (baseOutputs r.quality q zq) (⟨p.1.name, r.quality, false⟩ : Item) 0
      + tierSumFuel (5 - r.quality).toNat (baseOutputs r.quality q zq) p.1.name
          (r.quality + 1) = p.2
    rw [tierSumFuel_none p.1.name _ _ _ (fun t2 ht2 =>
      baseOutputs_getG?_ne r.quality q zq p.1.name t2 (by omega))]
    rw [getDG, baseOutputs_getG?_self r.quality q zq p hd hp hnf]
    rw [hq0]
    show p.2 * (1 - 0) + 0 = p.2
    ring
  · have h5 : r.quality < 5 := by
      rcases h3 with h3 | h3
      · exact h3
      · exact absurd h3 hq0
    have hbo : buildOutputs r.quality q zq
        = tierLoop zq (5 - r.quality).toNat q (q * (9/10)) (r.quality + 1)
            (baseOutputs r.quality q zq) := by
      unfold buildOutputs
      rw [if_pos (by simpa using hq0)]
    rw [hbo]
    unfold tierSum
    rw [hfuel]
    show getDG (tierLoop zq (5 - r.quality).toNat q (q * (9/10)) (r.quality + 1)
          (baseOutputs r.quality q zq)) (⟨p.1.name, r.quality, false⟩ : Item) 0
      + tierSumFuel (5 - r.quality).toNat (tierLoop zq (5 - r.quality).toNat q (q * (9/10))
          (r.quality + 1) (baseOutputs r.quality q zq)) p.1.name (r.quality + 1) = p.2
    rw [getDG, tierLoop_getG?_lt zq _ _ _ (r.quality + 1) _ _
      (Or.inl (by show r.quality < r.quality + 1; omega))]
    rw [baseOutputs_getG?_self r.quality q zq p hd hp hnf]
    rw [tierLoop_sum zq p hd hp hnf (5 - r.quality).toNat q (q * (9/10)) (r.quality + 1)
      (baseOutputs r.quality q zq) (by omega) (by omega)
      (fun t2 ht2 => baseOutputs_getG?_ne r.quality q zq p.1.name t2 (by omega))]
    show p.2 * (1 - q) + p.2 * q = p.2
    ring

/-- Claim C3 witness: a machine with base quality effect 1/2 on a
single-output quality-1 recipe; the output rates across tiers 1..5 sum
back to the netted zero-quality rate 1. -/
theorem C3_quality_mass_witness :
    qEffOf (recipeFix "w" [(nfItem "x" 1, 1)] [(nfItem "a" 1, 1)] [] 1) []
        (machineQuality (1/2)) settingsPlain ZERO_BONUS = 1/2 ∧
    tierSum (mkTransformation "t".data
        (recipeFix "w" [(nfItem "x" 1, 1)] [(nfItem "a" 1, 1)] [] 1) []
        (machineQuality (1/2)) settingsPlain ZERO_BONUS).outputs_per_sec
      "a".data 1 = 1 := by
  have hzq : zqOf (recipeFix "w" [(nfItem "x" 1, 1)] [(nfItem "a" 1, 1)] [] 1) []
      (machineQuality (1/2)) settingsPlain ZERO_BONUS = [(nfItem "a" 1, (1 : ℚ))] := by
    norm_num +decide [zqOf, recipeFix, nfItem, machineQuality, settingsPlain,
      extraEffects, rateOf, inputRates, zeroQualityRates, netCatalysts, netStep,
      MachineSettings.effect_total, Bonus.add, Bonus.smul, ZERO_BONUS, getDG, getG?,
      upsertG, keysG, containsG, eraseG, addToG, Clamp, ClampLo,
      List.filter_cons, List.filter_nil]
  constructor
  · norm_num [qEffOf, recipeFix, nfItem, machineQuality, settingsPlain, extraEffects,
      MachineSettings.effect_total, Bonus.add, Bonus.smul, ZERO_BONUS, getDG, getG?,
      ClampLo]
  · exact C3_quality_mass "t".data
      (recipeFix "w" [(nfItem "x" 1, 1)] [(nfItem "a" 1, 1)] [] 1) []
      (machineQuality (1/2)) settingsPlain ZERO_BONUS
      (by decide) (by decide) (Or.inl (by decide))
      (by unfold nfNamesDistinct; rw [hzq]; exact List.pairwise_singleton _ _)
      (nfItem "a" 1, (1 : ℚ)) (by rw [hzq]; exact List.mem_singleton_self _) rfl

/-- Claim C3 counterexample: two outputs of the same recipe sharing a name
(at different qualities) are both re-keyed to quality recipe.quality, so
the later rate overwrites the earlier one in outputs_per_sec: (a, q1) has
netted zero-quality rate 1, but the tier sum of a from tier 1 is 2, the
rate of the colliding entry (a, q2). -/
theorem C3_counterexample :
    (nfItem "a" 1, (1 : ℚ)) ∈ zqOf
      (recipeFix "r" [(nfItem "x" 1, 1)] [(nfItem "a" 1, 1), (nfItem "a" 2, 2)] [] 1)
      [] machineBasic settingsPlain ZERO_BONUS ∧
    (nfItem "a" 1).is_fluid = false ∧
    tierSum (mkTransformation "t".data
        (recipeFix "r" [(nfItem "x" 1, 1)] [(nfItem "a" 1, 1), (nfItem "a" 2, 2)] [] 1)
        [] machineBasic settingsPlain ZERO_BONUS).outputs_per_sec "a".data 1 = 2 := by
  refine ⟨?_, rfl, ?_⟩
  · have hzq : zqOf
        (recipeFix "r" [(nfItem "x" 1, 1)] [(nfItem "a" 1, 1), (nfItem "a" 2, 2)] [] 1)
        [] machineBasic settingsPlain ZERO_BONUS
        = [(nfItem "a" 1, (1 : ℚ)), (nfItem "a" 2, (2 : ℚ))] := by
      norm_num +decide [zqOf, recipeFix, nfItem, machineBasic, settingsPlain,
        extraEffects, rateOf, inputRates, zeroQualityRates, netCatalysts, netStep,
        MachineSettings.effect_total, Bonus.add, Bonus.smul, ZERO_BONUS, getDG, getG?,
        upsertG, keysG, containsG, eraseG, addToG, Clamp, ClampLo,
        List.filter_cons, List.filter_nil]
    rw [hzq]
    exact List.mem_cons_self _ _
  · norm_num +decide [tierSum, tierSumFuel, mkTransformation, zqOf, qEffOf, recipeFix,
      nfItem, machineBasic, settingsPlain, extraEffects, rateOf, inputRates,
      zeroQualityRates, netCatalysts, netStep, buildOutputs, baseOutputs, tierLoop,
      tierFold, MachineSettings.effect_total, Bonus.add, Bonus.smul, ZERO_BONUS, getDG,
      getG?, upsertG, keysG, containsG, eraseG, addToG, Clamp, ClampLo,
      List.filter_cons, List.filter_nil, MAX_QUALITY]

/-! ### Claim C1: the cost invariant of the valuation engine -/

theorem F.gn_add {a b : F} (ha : F.gn a) (hb : F.gn b) : F.gn (a.add b) := by
  cases a <;> cases b <;> simp_all [F.gn, F.good, F.add]
  linarith

theorem F.gn_mulQ {v : F} {c : ℚ} (hv : F.gn v) (hc : 0 ≤ c) : F.gn (v.mulQ c) := by
  cases v with
  | nan => exact Or.inl rfl
  | inf =>
    by_cases h0 : c = 0
    · exact Or.inl (by simp [F.mulQ, h0])
    · right
      have hpos : 0 < c := lt_of_le_of_ne hc (Ne.symm h0)
      simp [F.mulQ, h0, hpos, F.good]
  | ninf => rcases hv with hv | hv <;> simp [F.good] at hv
  | fin a =>
    rcases hv with hv | hv
    · cases hv
    · exact Or.inr (mul_nonneg hv hc)

theorem F.gn_divQ {v : F} {c : ℚ} {r : F} (hv : F.gn v) (hc : 0 < c)
    (h : F.divQ v c = some r) : F.gn r := by
  rw [F.divQ.eq_def, if_neg (ne_of_gt hc)] at h
  cases v with
  | nan => simp at h; exact h ▸ Or.inl rfl
  | inf =>
    simp [hc] at h
    exact h ▸ Or.inr trivial
  | ninf => rcases hv with hv | hv <;> simp [F.good] at hv
  | fin a =>
    rcases hv with hv | hv
    · cases hv
    · simp at h
      exact h ▸ Or.inr (div_nonneg hv (le_of_lt hc))

theorem F.add_fin {a b : F} {w : ℚ} (h : a.add b = F.fin w) :
    ∃ x y, a = F.fin x ∧ b = F.fin y ∧ x + y = w := by
  cases a <;> cases b <;> simp_all [F.add]

theorem F.mul_nan (x : F) : x.mul F.nan = F.nan := by cases x <;> rfl

theorem F.flt_ne_nan {v x : F} (h : F.flt v x = true) : v ≠ F.nan := by
  intro he
  rw [he] at h
  simp [F.flt] at h

theorem F.good_of_gn_flt {v x : F} (hv : F.gn v) (h : F.flt v x = true) : F.good v :=
  hv.resolve_left (F.flt_ne_nan h)

theorem sumTermsF_gn (costs : CostMap) (hc : ∀ p ∈ costs, F.good p.2) :
    ∀ (l : QList) (acc : F), (∀ p ∈ l, 0 ≤ p.2) → F.gn acc →
      ∀ r, sumTermsF costs l acc = some r → F.gn r := by
  intro l
  induction l with
  | nil =>
    intro acc _ hacc r h
    have h2 : some acc = some r := h
    cases h2
    exact hacc
  | cons p rest ih =>
    intro acc hl hacc r h
    have h2 : (match getG? costs p.1 with
        | none => none
        | some v => sumTermsF costs rest (acc.add (v.mulQ p.2))) = some r := h
    cases hg : getG? costs p.1 with
    | none => rw [hg] at h2; cases h2
    | some v =>
      rw [hg] at h2
      have hv : F.good v := hc (p.1, v) (getG?_mem hg)
      exact ih (acc.add (v.mulQ p.2)) (fun q hq => hl q (List.mem_cons_of_mem _ hq))
        (F.gn_add hacc (F.gn_mulQ (Or.inr hv) (hl p (List.mem_cons_self _ _)))) r h2

theorem sumTermsF_some (costs : CostMap) :
    ∀ (l : QList), (∀ p ∈ l, containsG costs p.1 = true) →
      ∀ acc, ∃ r, sumTermsF costs l acc = some r := by
  intro l
  induction l with
  | nil => intro _ acc; exact ⟨acc, rfl⟩
  | cons p rest ih =>
    intro hl acc
    obtain ⟨v, hv⟩ := getG?_isSome_of_contains (hl p (List.mem_cons_self _ _))
    obtain ⟨r, hr⟩ := ih (fun q hq => hl q (List.mem_cons_of_mem _ hq)) (acc.add (v.mulQ p.2))
    refine ⟨r, ?_⟩
    show (match getG? costs p.1 with
      | none => none
      | some v => sumTermsF costs rest (acc.add (v.mulQ p.2))) = some r
    rw [hv]
    exact hr

theorem discSum_some (costs : CostMap) (item : Item) :
    ∀ (l : QList), (∀ p ∈ l, containsG costs p.1 = true) →
      ∀ acc, ∃ s, discSum costs item l acc = some s := by
  intro l
  induction l with
  | nil => intro _ acc; exact ⟨acc, rfl⟩
  | cons p rest ih =>
    intro hl acc
    by_cases hcond : item.name = p.1.name ∧ p.1.quality < item.quality
    · obtain ⟨v, hv⟩ := getG?_isSome_of_contains (hl p (List.mem_cons_self _ _))
      obtain ⟨s, hs⟩ := ih (fun q hq => hl q (List.mem_cons_of_mem _ hq))
        (acc.add (v.mulQ p.2))
      refine ⟨s, ?_⟩
      show (if item.name = p.1.name ∧ p.1.quality < item.quality then
          match getG? costs p.1 with
          | none => none
          | some v => discSum costs item rest (acc.add (v.mulQ p.2))
        else discSum costs item rest acc) = some s
      rw [if_pos hcond, hv]
      exact hs
    · obtain ⟨s, hs⟩ := ih (fun q hq => hl q (List.mem_cons_of_mem _ hq)) acc
      refine ⟨s, ?_⟩
      show (if item.name = p.1.name ∧ p.1.quality < item.quality then
          match getG? costs p.1 with
          | none => none
          | some v => discSum costs item rest (acc.add (v.mulQ p.2))
        else discSum costs item rest acc) = some s
      rw [if_neg hcond]
      exact hs

theorem sum_disc_bound (costs : CostMap) (hc : ∀ p ∈ costs, F.good p.2) (item : Item) :
    ∀ (l : QList) (a1 a2 : F), (∀ p ∈ l, 0 ≤ p.2) →
      (∀ w, a1 = F.fin w → ∃ v, a2 = F.fin v ∧ v ≤ w) →
      ∀ (w : ℚ) (s : F), sumTermsF costs l a1 = some (F.fin w) →
        discSum costs item l a2 = some s → ∃ v, s = F.fin v ∧ v ≤ w := by
  intro l
  induction l with
  | nil =>
    intro a1 a2 _ h12 w s h1 h2
    have e1 : some a1 = some (F.fin w) := h1
    have e2 : some a2 = some s := h2
    cases e1
    cases e2
    exact h12 w rfl
  | cons p rest ih =>
    intro a1 a2 hl h12 w s h1 h2
    have h1m : (match getG? costs p.1 with
        | none => none
        | some v => sumTermsF costs rest (a1.add (v.mulQ p.2))) = some (F.fin w) := h1
    cases hg : getG? costs p.1 with
    | none => rw [hg] at h1m; cases h1m
    | some vc =>
      rw [hg] at h1m
      have hvc : F.good vc := hc (p.1, vc) (getG?_mem hg)
      have hterm : F.gn (vc.mulQ p.2) :=
        F.gn_mulQ (Or.inr hvc) (hl p (List.mem_cons_self _ _))
      have h12' : ∀ w2, a1.add (vc.mulQ p.2) = F.fin w2 →
          ∃ v2, a2.add (vc.mulQ p.2) = F.fin v2 ∧ v2 ≤ w2 := by
        intro w2 he
        obtain ⟨x, y, hx, hy, hxy⟩ := F.add_fin he
        have hy0 : 0 ≤ y := by
          rcases hterm with ht | ht
          · rw [hy] at ht; cases ht
          · rw [hy] at ht; exact ht
        obtain ⟨v2, hv2, hle⟩ := h12 x hx
        refine ⟨v2 + y, ?_, by linarith⟩
        rw [hv2, hy]
        rfl
      have h12'' : ∀ w2, a1.add (vc.mulQ p.2) = F.fin w2 →
          ∃ v2, a2 = F.fin v2 ∧ v2 ≤ w2 := by
        intro w2 he
        obtain ⟨x, y, hx, hy, hxy⟩ := F.add_fin he
        have hy0 : 0 ≤ y := by
          rcases hterm with ht | ht
          · rw [hy] at ht; cases ht
          · rw [hy] at ht; exact ht
        obtain ⟨v2, hv2, hle⟩ := h12 x hx
        exact ⟨v2, hv2, by linarith⟩
      have h2m : (if item.name = p.1.name ∧ p.1.quality < item.quality then
          match getG? costs p.1 with
          | none => none
          | some v => discSum costs item rest (a2.add (v.mulQ p.2))
        else discSum costs item rest a2) = some s := h2
      by_cases hcond : item.name = p.1.name ∧ p.1.quality < item.quality
      · rw [if_pos hcond, hg] at h2m
        exact ih (a1.add (vc.mulQ p.2)) (a2.add (vc.mulQ p.2))
          (fun q hq => hl q (List.mem_cons_of_mem _ hq)) h12' w s h1m h2m
      · rw [if_neg hcond] at h2m
        exact ih (a1.add (vc.mulQ p.2)) a2
          (fun q hq => hl q (List.mem_cons_of_mem _ hq)) h12'' w s h1m h2m

theorem discountFor_some (recycling : Bool) (costs : CostMap) (outs : QList) (item : Item)
    (tin tout : F) (hcov : ∀ p ∈ outs, containsG costs p.1 = true) :
    ∃ d, discountFor recycling costs outs item tin tout = some d := by
  by_cases hr : recycling = true
  · obtain ⟨s, hs⟩ := discSum_some costs item outs hcov (F.fin 0)
    refine ⟨if tout.truthy then (s.mulQ (1/4)).mul (tin.div tout)
      else (s.mulQ (1/4)).mulQ 0, ?_⟩
    rw [discountFor, if_pos hr, hs]
  · refine ⟨F.fin 0, ?_⟩
    rw [discountFor, if_neg hr]

theorem discSum_gn (costs : CostMap) (hc : ∀ p ∈ costs, F.good p.2) (item : Item) :
    ∀ (l : QList) (acc : F), (∀ p ∈ l, 0 ≤ p.2) → F.gn acc →
      ∀ s, discSum costs item l acc = some s → F.gn s := by
  intro l
  induction l with
  | nil =>
    intro acc _ hacc s h
    have h2 : some acc = some s := h
    cases h2
    exact hacc
  | cons p rest ih =>
    intro acc hl hacc s h
    have h2 : (if item.name = p.1.name ∧ p.1.quality < item.quality then
        match getG? costs p.1 with
        | none => none
        | some v => discSum costs item rest (acc.add (v.mulQ p.2))
      else discSum costs item rest acc) = some s := h
    by_cases hcond : item.name = p.1.name ∧ p.1.quality < item.quality
    · rw [if_pos hcond] at h2
      cases hg : getG? costs p.1 with
      | none => rw [hg] at h2; cases h2
      | some v =>
        rw [hg] at h2
        have hv : F.good v := hc (p.1, v) (getG?_mem hg)
        exact ih (acc.add (v.mulQ p.2)) (fun q hq => hl q (List.mem_cons_of_mem _ hq))
          (F.gn_add hacc (F.gn_mulQ (Or.inr hv) (hl p (List.mem_cons_self _ _)))) s h2
    · rw [if_neg hcond] at h2
      exact ih acc (fun q hq => hl q (List.mem_cons_of_mem _ hq)) hacc s h2

theorem discountFor_cases (recycling : Bool) (costs : CostMap) (outs : QList) (item : Item)
    (tin tout d : F) (ti : ℚ)
    (hc : ∀ p ∈ costs, F.good p.2) (houts : ∀ p ∈ outs, 0 ≤ p.2)
    (hst : sumTermsF costs outs (F.fin 0) = some tout)
    (htin : tin = F.fin ti) (hti : 0 ≤ ti)
    (hd : discountFor recycling costs outs item tin tout = some d) :
    d = F.nan ∨ ∃ dv, d = F.fin dv ∧ dv ≤ ti := by
  have htout : F.gn tout :=
    sumTermsF_gn costs hc outs (F.fin 0) houts (Or.inr (le_refl 0)) tout hst
  by_cases hr : recycling = true
  · rw [discountFor, if_pos hr] at hd
    cases hs : discSum costs item outs (F.fin 0) with
    | none => rw [hs] at hd; cases hd
    | some s =>
      rw [hs] at hd
      have hsgn : F.gn s :=
        discSum_gn costs hc item outs (F.fin 0) houts (Or.inr (le_refl 0)) s hs
      have hd2 : (if tout.truthy then (s.mulQ (1/4)).mul (tin.div tout)
          else (s.mulQ (1/4)).mulQ 0) = d := Option.some.inj hd
      subst htin
      by_cases htr : tout.truthy = true
      · rw [if_pos htr] at hd2
        cases tout with
        | nan =>
          left
          rw [← hd2]
          have he : (F.fin ti).div F.nan = F.nan := rfl
          rw [he, F.mul_nan]
        | ninf =>
          rcases htout with ht | ht <;> simp [F.good] at ht
        | inf =>
          cases s with
          | nan => left; rw [← hd2]; rfl
          | ninf => rcases hsgn with ht | ht <;> simp [F.good] at ht
          | inf =>
            left
            rw [← hd2]
            show (F.inf.mulQ (1/4)).mul (F.fin 0) = F.nan
            norm_num [F.mulQ, F.mul]
          | fin sv =>
            right
            refine ⟨sv * (1/4) * 0, ?_, ?_⟩
            · rw [← hd2]; rfl
            · nlinarith
        | fin w =>
          have hw0 : 0 ≤ w := by
            rcases htout with ht | ht
            · cases ht
            · exact ht
          have hwne : w ≠ 0 := by simpa [F.truthy] using htr
          have hw : 0 < w := lt_of_le_of_ne hw0 (Ne.symm hwne)
          obtain ⟨v, hv, hvw⟩ := sum_disc_bound costs hc item outs (F.fin 0) (F.fin 0)
            houts (fun w2 he => ⟨w2, he, le_refl w2⟩) w s hst hs
          subst hv
          right
          have hv0 : 0 ≤ v := by
            rcases hsgn with ht | ht
            · cases ht
            · exact ht
          refine ⟨v * (1/4) * (ti / w), ?_, ?_⟩
          · rw [← hd2]
            show ((F.fin v).mulQ (1/4)).mul ((F.fin ti).div (F.fin w)) = _
            simp [F.mulQ, F.mul, F.div, hwne]
          · have hdiv : 0 ≤ ti / w := div_nonneg hti (le_of_lt hw)
            have h2 : v * (ti / w) ≤ w * (ti / w) := mul_le_mul_of_nonneg_right hvw hdiv
            have h3 : w * (ti / w) = ti := by field_simp
            nlinarith
      · rw [if_neg htr] at hd2
        cases s with
        | nan => left; rw [← hd2]; rfl
        | ninf => rcases hsgn with ht | ht <;> simp [F.good] at ht
        | inf =>
          left
          rw [← hd2]
          show (F.inf.mulQ (1/4)).mulQ 0 = F.nan
          norm_num [F.mulQ]
        | fin sv =>
          right
          refine ⟨sv * (1/4) * 0, ?_, ?_⟩
          · rw [← hd2]; rfl
          · nlinarith
  · rw [discountFor, if_neg hr] at hd
    have e : some (F.fin 0) = some d := hd
    cases e
    exact Or.inr ⟨0, rfl, hti⟩

theorem numerator_gn (recycling : Bool) (costs : CostMap) (outs : QList) (item : Item)
    (tin tout d : F) (tc : ℚ)
    (hc : ∀ p ∈ costs, F.good p.2) (houts : ∀ p ∈ outs, 0 ≤ p.2)
    (htc : 0 ≤ tc) (htin : F.gn tin)
    (hst : sumTermsF costs outs (F.fin 0) = some tout)
    (hd : discountFor recycling costs outs item tin tout = some d) :
    F.gn (((F.fin tc).add tin).sub d) := by
  cases tin with
  | nan =>
    left
    have h1 : (F.fin tc).add F.nan = F.nan := rfl
    rw [h1]
    cases d <;> rfl
  | ninf => rcases htin with ht | ht <;> simp [F.good] at ht
  | inf =>
    have h1 : (F.fin tc).add F.inf = F.inf := rfl
    rw [h1]
    cases d with
    | nan => exact Or.inl rfl
    | inf => exact Or.inl rfl
    | ninf => exact Or.inr trivial
    | fin q => exact Or.inr trivial
  | fin ti =>
    have hti : 0 ≤ ti := by
      rcases htin with ht | ht
      · cases ht
      · exact ht
    rcases discountFor_cases recycling costs outs item (F.fin ti) tout d ti hc houts hst
        rfl hti hd with hdn | ⟨dv, hdv, hdle⟩
    · subst hdn
      left
      rfl
    · subst hdv
      right
      show F.good (F.fin (tc + ti + -dv))
      show 0 ≤ tc + ti + -dv
      linarith

theorem outLoop_good_some (recycling : Bool) (mtc : ℚ) (costs : CostMap) (outs : QList)
    (mining : Bool) (tin tout : F)
    (hc : ∀ p ∈ costs, F.good p.2) (houts : ∀ p ∈ outs, 0 < p.2)
    (hcov : ∀ p ∈ outs, containsG costs p.1 = true)
    (hmtc : 0 ≤ mtc) (htin : F.gn tin)
    (hst : sumTermsF costs outs (F.fin 0) = some tout) :
    ∀ (l : QList), (∀ p ∈ l, p ∈ outs) → ∀ (acc : CostMap), (∀ p ∈ acc, F.good p.2) →
      ∃ r, outLoop recycling mtc costs outs mining tin tout l acc = some r ∧
        ∀ p ∈ r, F.good p.2 := by
  intro l
  induction l with
  | nil => intro _ acc hacc; exact ⟨acc, rfl, hacc⟩
  | cons p rest ih =>
    intro hl acc hacc
    obtain ⟨d, hd⟩ := discountFor_some recycling costs outs p.1 tin tout hcov
    have htc : 0 ≤ (if mining = true then mtc * 10 else mtc) := by
      split
      · linarith
      · exact hmtc
    have hnum : F.gn (((F.fin (if mining = true then mtc * 10 else mtc)).add tin).sub d) :=
      numerator_gn recycling costs outs p.1 tin tout d _ hc
        (fun q hq => le_of_lt (houts q hq)) htc htin hst hd
    have hcount : 0 < countFor outs p.1 :=
      countFor_pos outs p (hl p (List.mem_cons_self _ _)) houts
    obtain ⟨v, hv⟩ : ∃ v, F.divQ (((F.fin (if mining = true then mtc * 10 else mtc)).add
        tin).sub d) (countFor outs p.1) = some v := by
      rw [F.divQ.eq_def, if_neg (ne_of_gt hcount)]
      cases ((F.fin (if mining = true then mtc * 10 else mtc)).add tin).sub d <;>
        exact ⟨_, rfl⟩
    have hvgn : F.gn v := F.gn_divQ hnum hcount hv
    have hacc2 : ∀ q ∈ (if v.flt (getDG acc p.1 F.inf) then upsertG acc p.1 v else acc),
        F.good q.2 := by
      split
      · next hflt =>
        intro q hq
        rcases mem_upsertG acc p.1 v q hq with hq2 | hq2
        · rw [hq2]
          exact F.good_of_gn_flt hvgn hflt
        · exact hacc q hq2
      · exact hacc
    obtain ⟨r, hr, hrg⟩ := ih (fun q hq => hl q (List.mem_cons_of_mem _ hq))
      (if v.flt (getDG acc p.1 F.inf) then upsertG acc p.1 v else acc) hacc2
    refine ⟨r, ?_, hrg⟩
    show (match discountFor recycling costs outs p.1 tin tout with
      | none => none
      | some d =>
        match F.divQ (((F.fin (if mining = true then mtc * 10 else mtc)).add tin).sub d)
            (countFor outs p.1) with
        | none => none
        | some v =>
          outLoop recycling mtc costs outs mining tin tout rest
            (if v.flt (getDG acc p.1 F.inf) then upsertG acc p.1 v else acc)) = some r
    rw [hd]
    show (match F.divQ (((F.fin (if mining = true then mtc * 10 else mtc)).add tin).sub d)
        (countFor outs p.1) with
      | none => none
      | some v =>
        outLoop recycling mtc costs outs mining tin tout rest
          (if v.flt (getDG acc p.1 F.inf) then upsertG acc p.1 v else acc)) = some r
    rw [hv]
    exact hr

theorem transLoop_good_some (recycling : Bool) (mtc : ℚ) (costs : CostMap)
    (hc : ∀ p ∈ costs, F.good p.2) (hmtc : 0 ≤ mtc) :
    ∀ (ts : List Transformation),
      (∀ t ∈ ts, (∀ p ∈ t.inputs_per_sec, 0 ≤ p.2) ∧ (∀ p ∈ t.outputs_per_sec, 0 < p.2) ∧
        (∀ p ∈ t.inputs_per_sec, containsG costs p.1 = true) ∧
        (∀ p ∈ t.outputs_per_sec, containsG costs p.1 = true)) →
      ∀ acc, (∀ p ∈ acc, F.good p.2) →
        ∃ r, transLoop recycling mtc costs ts acc = some r ∧ ∀ p ∈ r, F.good p.2 := by
  intro ts
  induction ts with
  | nil => intro _ acc hacc; exact ⟨acc, rfl, hacc⟩
  | cons t rest ih =>
    intro hts acc hacc
    obtain ⟨hin0, hout0, hincov, houtcov⟩ := hts t (List.mem_cons_self _ _)
    obtain ⟨tin, htin⟩ := sumTermsF_some costs t.inputs_per_sec hincov (F.fin 0)
    obtain ⟨tout, htout⟩ := sumTermsF_some costs t.outputs_per_sec houtcov (F.fin 0)
    have htingn : F.gn tin :=
      sumTermsF_gn costs hc t.inputs_per_sec (F.fin 0) hin0 (Or.inr (le_refl 0)) tin htin
    obtain ⟨acc2, hacc2, hacc2g⟩ := outLoop_good_some recycling mtc costs t.outputs_per_sec
      t.recipe.is_mining tin tout hc hout0 houtcov hmtc htingn htout
      t.outputs_per_sec (fun q hq => hq) acc hacc
    obtain ⟨r, hr, hrg⟩ := ih (fun t2 ht2 => hts t2 (List.mem_cons_of_mem _ ht2)) acc2 hacc2g
    refine ⟨r, ?_, hrg⟩
    show (match sumTermsF costs t.inputs_per_sec (F.fin 0) with
      | none => none
      | some tin =>
        match sumTermsF costs t.outputs_per_sec (F.fin 0) with
        | none => none
        | some tout =>
          match outLoop recycling mtc costs t.outputs_per_sec t.recipe.is_mining tin tout
              t.outputs_per_sec acc with
          | none => none
          | some acc2 => transLoop recycling mtc costs rest acc2) = some r
    rw [htin]
    show (match sumTermsF costs t.outputs_per_sec (F.fin 0) with
      | none => none
      | some tout =>
        match outLoop recycling mtc costs t.outputs_per_sec t.recipe.is_mining tin tout
            t.outputs_per_sec acc with
        | none => none
        | some acc2 => transLoop recycling mtc costs rest acc2) = some r
    rw [htout]
    show (match outLoop recycling mtc costs t.outputs_per_sec t.recipe.is_mining tin tout
        t.outputs_per_sec acc with
      | none => none
      | some acc2 => transLoop recycling mtc costs rest acc2) = some r
    rw [hacc2]
    exact hr

theorem fillMissing_good : ∀ (old acc : CostMap), (∀ p ∈ acc, F.good p.2) →
    ∀ p ∈ fillMissing old acc, F.good p.2 := by
  intro old
  induction old with
  | nil => intro acc hacc; exact hacc
  | cons q rest ih =>
    intro acc hacc
    show ∀ p ∈ fillMissing rest (if containsG acc q.1 then acc else upsertG acc q.1 F.inf), _
    refine ih _ ?_
    split
    · exact hacc
    · intro p hp
      rcases mem_upsertG acc q.1 F.inf p hp with h | h
      · rw [h]; trivial
      · exact hacc p h

theorem fillMissing_mono : ∀ (old acc : CostMap) (k : Item), containsG acc k = true →
    containsG (fillMissing old acc) k = true := by
  intro old
  induction old with
  | nil => intro acc k hk; exact hk
  | cons q rest ih =>
    intro acc k hk
    show containsG (fillMissing rest (if containsG acc q.1 then acc
      else upsertG acc q.1 F.inf)) k = true
    refine ih _ k ?_
    split
    · exact hk
    · exact containsG_upsertG_of acc q.1 k F.inf hk

theorem fillMissing_covers : ∀ (old acc : CostMap) (p : Item × F), p ∈ old →
    containsG (fillMissing old acc) p.1 = true := by
  intro old
  induction old with
  | nil => intro acc p hp; cases hp
  | cons q rest ih =>
    intro acc p hp
    show containsG (fillMissing rest (if containsG acc q.1 then acc
      else upsertG acc q.1 F.inf)) p.1 = true
    rcases List.mem_cons.mp hp with h | h
    · subst h
      refine fillMissing_mono rest _ p.1 ?_
      split
      · next hcc => exact hcc
      · exact containsG_upsertG_self acc p.1 F.inf
    · exact ih _ p h

theorem iterStep_good (recycling : Bool) (mtc rbc : ℚ) (ts : List Transformation)
    (hmtc : 0 ≤ mtc) (hrbc : 0 ≤ rbc)
    (hts : ∀ t ∈ ts, (∀ p ∈ t.inputs_per_sec, 0 ≤ p.2) ∧ (∀ p ∈ t.outputs_per_sec, 0 < p.2))
    (costs : CostMap) (hcg : ∀ p ∈ costs, F.good p.2)
    (hcov : ∀ t ∈ ts, (∀ p ∈ t.inputs_per_sec, containsG costs p.1 = true) ∧
      (∀ p ∈ t.outputs_per_sec, containsG costs p.1 = true)) :
    ∃ m2, iterStep recycling mtc rbc ts costs = some m2 ∧ (∀ p ∈ m2, F.good p.2) ∧
      (∀ k, containsG costs k = true → containsG m2 k = true) := by
  obtain ⟨nc, hnc, hncg⟩ := transLoop_good_some recycling mtc costs hcg hmtc ts
    (fun t ht => ⟨(hts t ht).1, (hts t ht).2, (hcov t ht).1, (hcov t ht).2⟩)
    [] (by intro p hp; cases hp)
  refine ⟨upsertG (fillMissing costs nc) BASE_RESOURCE (F.fin rbc), ?_, ?_, ?_⟩
  · show (match transLoop recycling mtc costs ts [] with
      | none => none
      | some nc => some (upsertG (fillMissing costs nc) BASE_RESOURCE (F.fin rbc))) = _
    rw [hnc]
  · intro p hp
    rcases mem_upsertG _ _ _ p hp with h | h
    · rw [h]; exact hrbc
    · exact fillMissing_good costs nc hncg p h
  · intro k hk
    obtain ⟨v, hv⟩ := getG?_isSome_of_contains hk
    exact containsG_upsertG_of _ _ _ _ (fillMissing_covers costs nc (k, v) (getG?_mem hv))

theorem iterN_good (recycling : Bool) (mtc rbc : ℚ) (ts : List Transformation)
    (hmtc : 0 ≤ mtc) (hrbc : 0 ≤ rbc)
    (hts : ∀ t ∈ ts, (∀ p ∈ t.inputs_per_sec, 0 ≤ p.2) ∧
      (∀ p ∈ t.outputs_per_sec, 0 < p.2)) :
    ∀ (k : Nat) (costs : CostMap), (∀ p ∈ costs, F.good p.2) →
      (∀ t ∈ ts, (∀ p ∈ t.inputs_per_sec, containsG costs p.1 = true) ∧
        (∀ p ∈ t.outputs_per_sec, containsG costs p.1 = true)) →
      ∃ m, iterN recycling mtc rbc ts k costs = some m ∧ ∀ p ∈ m, F.good p.2 := by
  intro k
  induction k with
  | zero => intro costs hg _; exact ⟨costs, rfl, hg⟩
  | succ k ih =>
    intro costs hg hcov
    obtain ⟨m2, hm2, hm2g, hm2c⟩ := iterStep_good recycling mtc rbc ts hmtc hrbc hts
      costs hg hcov
    obtain ⟨m, hm, hmg⟩ := ih m2 hm2g (fun t ht =>
      ⟨fun p hp => hm2c _ ((hcov t ht).1 p hp), fun p hp => hm2c _ ((hcov t ht).2 p hp)⟩)
    refine ⟨m, ?_, hmg⟩
    show (match iterStep recycling mtc rbc ts costs with
      | none => none
      | some m2 => iterN recycling mtc rbc ts k m2) = some m
    rw [hm2]
    exact hm

theorem initCosts_good (c : Controller) (hrbc : 0 ≤ c.config.resource_base_cost) :
    ∀ p ∈ initCosts c, F.good p.2 := by
  intro p hp
  have hups : ∀ (l : QList) (m : CostMap) (q : Item × F),
      q ∈ l.foldl (fun m x => upsertG m x.1 (F.fin c.config.resource_base_cost)) m →
        q ∈ m ∨ q.2 = F.fin c.config.resource_base_cost := by
    intro l m q hq
    rcases mem_foldl_step (fun m x => upsertG m x.1 (F.fin c.config.resource_base_cost))
      (fun _ q => q.2 = F.fin c.config.resource_base_cost)
      (fun m x q hq => by
        rcases mem_upsertG m x.1 _ q hq with h | h
        · right; rw [h]
        · left; exact h) l m q hq with h | ⟨x, _, hP⟩
    · exact Or.inl h
    · exact Or.inr hP
  have hp2 : p ∈ c.transformations.foldl
      (fun m t => t.outputs_per_sec.foldl
        (fun m p => upsertG m p.1 (F.fin c.config.resource_base_cost))
        (t.inputs_per_sec.foldl
          (fun m p => upsertG m p.1 (F.fin c.config.resource_base_cost)) m)) [] := hp
  rcases mem_foldl_step
    (fun m t => t.outputs_per_sec.foldl
      (fun m p => upsertG m p.1 (F.fin c.config.resource_base_cost))
      (t.inputs_per_sec.foldl
        (fun m p => upsertG m p.1 (F.fin c.config.resource_base_cost)) m))
    (fun _ q => q.2 = F.fin c.config.resource_base_cost)
    (fun m t q hq => by
      rcases hups t.outputs_per_sec _ q hq with h | h
      · rcases hups t.inputs_per_sec m q h with h2 | h2
        · exact Or.inl h2
        · exact Or.inr h2
      · exact Or.inr h)
    c.transformations [] p hp2 with h | ⟨t, _, hP⟩
  · cases h
  · rw [hP]; exact hrbc

theorem contains_fold_ups (v : F) (l : QList) : ∀ (m : CostMap) (p : Item × ℚ), p ∈ l →
    containsG (l.foldl (fun m q => upsertG m q.1 v) m) p.1 = true := by
  induction l with
  | nil => intro m p hp; cases hp
  | cons q rest ih =>
    intro m p hp
    rw [List.foldl_cons]
    rcases List.mem_cons.mp hp with h | h
    · subst h
      exact contains_foldl_mono (fun m x => upsertG m x.1 v)
        (fun m x k hk => containsG_upsertG_of m x.1 k v hk) rest _ p.1
        (containsG_upsertG_self m p.1 v)
    · exact ih _ p h

theorem contains_fold_ups_mono (v : F) (l : QList) (m : CostMap) (k : Item)
    (hk : containsG m k = true) :
    containsG (l.foldl (fun m q => upsertG m q.1 v) m) k = true :=
  contains_foldl_mono (fun m x => upsertG m x.1 v)
    (fun m x k hk => containsG_upsertG_of m x.1 k v hk) l m k hk

theorem initCosts_covers (c : Controller) : ∀ t ∈ c.transformations,
    (∀ p ∈ t.inputs_per_sec, containsG (initCosts c) p.1 = true) ∧
    (∀ p ∈ t.outputs_per_sec, containsG (initCosts c) p.1 = true) := by
  have hpres : ∀ (m : CostMap) (x : Transformation) (k : Item), containsG m k = true →
      containsG (x.outputs_per_sec.foldl
        (fun m p => upsertG m p.1 (F.fin c.config.resource_base_cost))
        (x.inputs_per_sec.foldl
          (fun m p => upsertG m p.1 (F.fin c.config.resource_base_cost)) m)) k = true := by
    intro m x k hk
    exact contains_fold_ups_mono _ _ _ k (contains_fold_ups_mono _ _ _ k hk)
  have haux : ∀ (l : List Transformation) (init : CostMap) (t : Transformation), t ∈ l →
      (∀ p ∈ t.inputs_per_sec, containsG (l.foldl
        (fun m t => t.outputs_per_sec.foldl
          (fun m p => upsertG m p.1 (F.fin c.config.resource_base_cost))
          (t.inputs_per_sec.foldl
            (fun m p => upsertG m p.1 (F.fin c.config.resource_base_cost)) m)) init)
        p.1 = true) ∧
      (∀ p ∈ t.outputs_per_sec, containsG (l.foldl
        (fun m t => t.outputs_per_sec.foldl
          (fun m p => upsertG m p.1 (F.fin c.config.resource_base_cost))
          (t.inputs_per_sec.foldl
            (fun m p => upsertG m p.1 (F.fin c.config.resource_base_cost)) m)) init)
        p.1 = true) := by
    intro l
    induction l with
    | nil => intro init t ht; cases ht
    | cons t0 rest ih =>
      intro init t ht
      rcases List.mem_cons.mp ht with h | h
      · subst h
        rw [List.foldl_cons]
        constructor
        · intro p hp
          refine contains_foldl_mono _ hpres rest _ p.1 ?_
          exact contains_fold_ups_mono _ _ _ p.1 (contains_fold_ups _ _ _ p hp)
        · intro p hp
          refine contains_foldl_mono _ hpres rest _ p.1 ?_
          exact contains_fold_ups _ _ _ p hp
      · rw [List.foldl_cons]
        exact ih _ t h
  intro t ht
  exact haux c.transformations [] t ht

/-- Claim C1 (corrected): the stated data-model preconditions do not keep
costs non-negative (C1_counterexample: a quality effect above 1 makes an
output rate negative and a finite cost negative). What the candidate filter
does guarantee: when machine_time_cost and resource_base_cost are
non-negative and every transformation of the controller has non-negative
inputs_per_sec rates and strictly positive outputs_per_sec rates, every
pass of iterate() succeeds and every value of the cost map after each pass
(and hence each cost compute_all_costs returns) is a non-negative finite
value or +inf: never negative, never NaN. -/
theorem C1_costs_good (c : Controller) (iterations : Nat)
    (hmtc : 0 ≤ c.config.machine_time_cost) (hrbc : 0 ≤ c.config.resource_base_cost)
    (hts : ∀ t ∈ c.transformations,
      (∀ p ∈ t.inputs_per_sec, 0 ≤ p.2) ∧ (∀ p ∈ t.outputs_per_sec, 0 < p.2)) :
    (∀ k : Nat, ∃ m, iterN c.config.enable_recycling c.config.machine_time_cost
        c.config.resource_base_cost c.transformations k (initCosts c) = some m ∧
        ∀ p ∈ m, F.good p.2) ∧
    (∃ m, computeAllCosts c iterations = some m ∧ ∀ p ∈ m, F.good p.2) := by
  have hall : ∀ k : Nat, ∃ m, iterN c.config.enable_recycling c.config.machine_time_cost
      c.config.resource_base_cost c.transformations k (initCosts c) = some m ∧
      ∀ p ∈ m, F.good p.2 := fun k =>
    iterN_good c.config.enable_recycling c.config.machine_time_cost
      c.config.resource_base_cost c.transformations hmtc hrbc hts k (initCosts c)
      (initCosts_good c hrbc) (initCosts_covers c)
  exact ⟨hall, hall (iterations + 1)⟩

/-- Claim C1 witness: a one-recipe controller with non-negative input rates
and positive output rates; every returned cost is good. -/
theorem C1_costs_good_witness :
    (∀ t ∈ (mkController (configFix [recipeFix "w" [(nfItem "x" 1, 1)]
        [(nfItem "a" 1, 1)] [] 1] machineBasic)).transformations,
      (∀ p ∈ t.inputs_per_sec, 0 ≤ p.2) ∧ (∀ p ∈ t.outputs_per_sec, 0 < p.2)) ∧
    ∃ m, computeAllCosts (mkController (configFix [recipeFix "w" [(nfItem "x" 1, 1)]
        [(nfItem "a" 1, 1)] [] 1] machineBasic)) 1 = some m ∧ ∀ p ∈ m, F.good p.2 := by
  have hts : ∀ t ∈ (mkController (configFix [recipeFix "w" [(nfItem "x" 1, 1)]
      [(nfItem "a" 1, 1)] [] 1] machineBasic)).transformations,
      (∀ p ∈ t.inputs_per_sec, 0 ≤ p.2) ∧ (∀ p ∈ t.outputs_per_sec, 0 < p.2) := by
    norm_num +decide [mkController, configFix, recipeFix, nfItem, machineBasic,
      settingsPlain, mkTransformation, insOf, zqOf, qEffOf, extraEffects, rateOf,
      inputRates, zeroQualityRates, netCatalysts, netStep, buildOutputs, baseOutputs,
      tierLoop, tierFold, MachineSettings.effect_total, Bonus.add, Bonus.smul, ZERO_BONUS,
      getDG, getG?, upsertG, keysG, containsG, eraseG, addToG, Clamp, ClampLo,
      buildRecipeMap, containsSub, startsWithS, usesProdModules, usesQualityModules,
      List.filter_cons, List.filter_nil, MAX_QUALITY]
  refine ⟨hts, ?_⟩
  exact (C1_costs_good (mkController (configFix [recipeFix "w" [(nfItem "x" 1, 1)]
      [(nfItem "a" 1, 1)] [] 1] machineBasic)) 1
    (by norm_num [mkController, configFix]) (by norm_num [mkController, configFix]) hts).2

/-- Claim C1 counterexample: a configuration meeting the data-model
preconditions of the claim (positive recipe time and machine speed,
non-negative item counts, non-negative machine_time_cost and
resource_base_cost) whose machine carries a quality effect of 2: the
quality-5 recipe's output rate becomes 1 * (1 - 2) = -1, and after one pass
the cost of b at quality 5 is the negative finite value -2. -/
theorem C1_counterexample :
    (∀ r ∈ (configFix [recipeFix "r" [(nfItem "a" 1, 1)] [(nfItem "b" 5, 1)] [] 5]
        (machineQuality 2)).recipes,
      0 < r.time ∧ (∀ p ∈ r.inputs, 0 ≤ p.2) ∧ (∀ p ∈ r.outputs, 0 ≤ p.2) ∧
        (∀ p ∈ r.outputs_no_productivity, 0 ≤ p.2)) ∧
    (∀ mp ∈ (configFix [recipeFix "r" [(nfItem "a" 1, 1)] [(nfItem "b" 5, 1)] [] 5]
        (machineQuality 2)).machines, 0 < mp.2.speed) ∧
    0 ≤ (configFix [recipeFix "r" [(nfItem "a" 1, 1)] [(nfItem "b" 5, 1)] [] 5]
        (machineQuality 2)).machine_time_cost ∧
    0 ≤ (configFix [recipeFix "r" [(nfItem "a" 1, 1)] [(nfItem "b" 5, 1)] [] 5]
        (machineQuality 2)).resource_base_cost ∧
    (computeAllCosts (mkController (configFix
        [recipeFix "r" [(nfItem "a" 1, 1)] [(nfItem "b" 5, 1)] [] 5]
        (machineQuality 2))) 0).map
      (fun m => getDG m (nfItem "b" 5) (F.fin 0)) = some (F.fin (-2)) ∧
    F.flt (F.fin (-2)) (F.fin 0) = true := by
  refine ⟨?_, ?_, ?_, ?_, ?_, ?_⟩
  · norm_num [configFix, recipeFix, nfItem]
  · norm_num [configFix, machineQuality]
  · norm_num [configFix]
  · norm_num [configFix]
  · norm_num +decide [computeAllCosts, iterN, iterStep, transLoop, outLoop, sumTermsF,
      discSum, discountFor, countFor, fillMissing, initCosts, mkController, configFix,
      recipeFix, nfItem, machineQuality, settingsPlain, mkTransformation, insOf, zqOf,
      qEffOf, extraEffects, rateOf, inputRates, zeroQualityRates, netCatalysts, netStep,
      buildOutputs, baseOutputs, tierLoop, tierFold, MachineSettings.effect_total,
      Bonus.add, Bonus.smul, ZERO_BONUS, getDG, getG?, upsertG, keysG, containsG, eraseG,
      addToG, Clamp, ClampLo, buildRecipeMap, containsSub, startsWithS, usesProdModules,
      usesQualityModules, BASE_RESOURCE, F.divQ, F.add, F.sub, F.neg, F.mul, F.mulQ,
      F.div, F.flt, F.truthy, List.filter_cons, List.filter_nil, MAX_QUALITY]
  · decide

end FC
